import Mathlib

/-!
Verification of the task execution engine of `onboarder.py`
(classes `Task`, `TaskStatus`, `TaskRunner`).

The engine is embedded shallowly:
* pure data (`Task`, `TaskStatus`) becomes Lean structures;
* the DFS linearization inside `TaskRunner.run` becomes fueled
  recursion (`dfsVisit` / `dfsDeps`), the fuel being large enough that
  it is never exhausted on the inputs `run` produces;
* the run loop becomes explicit state passing over `RState`;
* the child processes and the output sink are oracles
  (`ProcBehavior`, `SinkOracle`); a raising `await` is modelled by an
  `Option String` fault channel, and an exception escaping `run`
  by `Except.error`;
* `time.time()` is modelled by a monotone counter (only the presence
  of timestamps matters to the specification);
* ghost fields (`launched`, `assigns`) record which processes were
  spawned and which state strings were assigned, in order.
-/
namespace Onboarder

/-- Python `command: List[str] | str` as a tagged union:
an argument vector or a shell-interpreted string. -/
inductive CmdRep where
  | argv (args : List String)
  | shellLine (s : String)
deriving DecidableEq

/-- The `Task` dataclass of `onboarder.py` (the `cwd` path and the
environment overrides are carried as opaque strings; they do not
influence the control flow of the engine). -/
structure Task where
  id : String
  label : String
  command : CmdRep
  cwd : Option String := none
  env : List (String × String) := []
  depends_on : List String := []
  timeout : Option Nat := none
  shell : Bool := false
deriving DecidableEq

/-- The `TaskStatus` dataclass: default state is `"pending"`,
timestamps are clock readings, `rc` the recorded exit code. -/
structure TaskStatus where
  id : String
  state : String := "pending"
  start_ts : Option Nat := none
  end_ts : Option Nat := none
  rc : Option Int := none
  message : String := ""
deriving DecidableEq

/-- `id_to_task = {t.id: t for t in tasks}`: a later task with the same
id overwrites an earlier one, hence lookup in the reversed list. -/
def lookupTask (tasks : List Task) (tid : String) : Option Task :=
  tasks.reverse.find? (fun t => t.id == tid)

/-- The identifiers present in the definition set (the dict keys). -/
def taskIds (tasks : List Task) : List String :=
  tasks.map (fun t => t.id)

/-- `id_to_task[tid].depends_on`, defaulting to `[]` when absent
(the code only evaluates it for present identifiers). -/
def depsOf (tasks : List Task) (tid : String) : List String :=
  ((lookupTask tasks tid).map Task.depends_on).getD []

/-- Line 250: `cmd = task.command if isinstance(task.command, list)
else ["bash", "-lc", task.command]`. -/
def resolvedCmd (t : Task) : List String :=
  match t.command with
  | .argv args => args
  | .shellLine s => ["bash", "-lc", s]

/-! ### The scheduler: the DFS inside `TaskRunner.run` (lines 203-224)

State is the pair `(seen, ordered)`.  `dfsVisit` is the Python `dfs`;
the recursion is fueled, one unit per nesting level, which suffices
because every nesting level adds one fresh key to `seen`. -/

/-- `dfs(tid)`: return if seen; mark seen; recurse into the present
dependencies; append `tid` post-order. -/
def dfsVisit (tasks : List Task) : Nat → String → List String × List String →
    List String × List String
  | 0, _, st => st
  | fuel + 1, tid, st =>
    if tid ∈ st.1 then st
    else
      let st2 := (depsOf tasks tid).foldl
        (fun acc d => if (lookupTask tasks d).isSome then dfsVisit tasks fuel d acc else acc)
        (tid :: st.1, st.2)
      (st2.1, st2.2 ++ [tid])

/-- The `for dep in ...: if dep in id_to_task: dfs(dep)` loop, as the
fold `dfsVisit` performs over the dependency list. -/
def dfsDeps (tasks : List Task) (fuel : Nat) (ds : List String)
    (st : List String × List String) : List String × List String :=
  ds.foldl
    (fun acc d => if (lookupTask tasks d).isSome then dfsVisit tasks fuel d acc else acc)
    st

/-- Lines 215-217: `for tid in to_run: if tid in id_to_task: dfs(tid)`. -/
def dfsAll (tasks : List Task) (fuel : Nat) (roots : List String)
    (st : List String × List String) : List String × List String :=
  roots.foldl
    (fun acc tid => if (lookupTask tasks tid).isSome then dfsVisit tasks fuel tid acc else acc)
    st

/-- Lines 219-224: rebuild `final_order` keeping the first occurrence
of each identifier (`added` is the guard set). -/
def dedupFirst : List String → List String → List String
  | [], _ => []
  | x :: xs, added =>
    if x ∈ added then dedupFirst xs added else x :: dedupFirst xs (x :: added)

/-- Line 202: `to_run = list(selected) if selected else [t.id for t in tasks]`.
Python truthiness: `None` and the empty list both default to all ids. -/
def toRunOf (tasks : List Task) (selected : Option (List String)) : List String :=
  match selected with
  | some l => if l.isEmpty then taskIds tasks else l
  | none => taskIds tasks

/-- The linear order `final_order` computed at the start of
`TaskRunner.run` (lines 201-224). -/
def linearize (tasks : List Task) (selected : Option (List String)) : List String :=
  dedupFirst (dfsAll tasks (tasks.length + 1) (toRunOf tasks selected) ([], [])).2 []

/-! ### The execution engine: `TaskRunner` state and oracles -/

/-- One child process, as the engine observes it:
either `create_subprocess_exec` raises, or the process is spawned,
emits `lines` on its merged stream and then either the stream/wait
raises (`.error msg`) or the process exits with code `rc` (`.ok rc`). -/
inductive ProcBehavior where
  | launchFault (msg : String)
  | runsTo (lines : List String) (outcome : Except String Int)

/-- The output sink (`LogView.write`): `fault n = some msg` makes the
`n`-th write of the run raise `msg`; `none` makes it return normally. -/
structure SinkOracle where
  fault : Nat → Option String

/-- A sink whose writes always return normally, as `LogView.write` does. -/
def sinkOk (o : SinkOracle) : Prop := ∀ n, o.fault n = none

/-- The mutable world of a `TaskRunner` instance: the status dict, the
cancel event, the text accumulated by the sink, the write counter, the
clock counter, plus ghost trails of spawned processes (id and resolved
command) and of state-field assignments. -/
structure RState where
  status : String → Option TaskStatus
  cancelFlag : Bool
  log : List String
  writeAttempts : Nat
  now : Nat
  launched : List (String × List String)
  assigns : List (String × String)

/-- The state of a freshly constructed `TaskRunner`. -/
def initState : RState :=
  { status := fun _ => none, cancelFlag := false, log := [], writeAttempts := 0,
    now := 0, launched := [], assigns := [] }

/-- `self.status.get(tid) or TaskStatus(id=tid)` (also used for
`self.status.get(d, TaskStatus(d))`). -/
def getStatus (s : RState) (tid : String) : TaskStatus :=
  (s.status tid).getD { id := tid }

/-- `TaskRunner._set_status`: fetch-or-create, patch fields, store.
Every call site patches `state`, so the assigned state string is
recorded on the ghost trail. -/
def setStatus (s : RState) (tid : String) (f : TaskStatus → TaskStatus) : RState :=
  let st := f (getStatus s tid)
  { s with
    status := fun k => if k = tid then some st else s.status k,
    assigns := s.assigns ++ [(tid, st.state)] }

/-- `time.time()` as a monotone counter: read the clock, advance it. -/
def tick (s : RState) : Nat × RState :=
  (s.now, { s with now := s.now + 1 })

/-- `await self.log_sink.write(text)`: the oracle decides whether this
write raises; a normal write appends the text to the sink. -/
def sinkWrite (o : SinkOracle) (s : RState) (text : String) : RState × Option String :=
  match o.fault s.writeAttempts with
  | some msg => ({ s with writeAttempts := s.writeAttempts + 1 }, some msg)
  | none => ({ s with log := s.log ++ [text], writeAttempts := s.writeAttempts + 1 }, none)

/-- The `async for line in proc.stdout: await self.log_sink.write(...)`
loop; a raising write aborts the drain with that exception. -/
def writeLines (o : SinkOracle) : List String → RState → RState × Option String
  | [], s => (s, none)
  | l :: ls, s =>
    match sinkWrite o s l with
    | (s', none) => writeLines o ls s'
    | (s', some e) => (s', some e)

/-- Python's rendering of `task.command` in the dry-run preview
(`f"{task.command}"`); string-escape details inside the list repr
are not modelled. -/
def cmdText : CmdRep → String
  | .argv args => "['" ++ String.intercalate "', '" args ++ "']"
  | .shellLine s => s

/-- The `=== ▶ ... ===` start banner of `_execute`. -/
def startBanner (task : Task) : String :=
  "\n=== ▶ " ++ task.label ++ " [" ++ task.id ++ "] ===\n"

/-- The `[dry-run]` preview line written by `run`. -/
def dryPreview (task : Task) : String :=
  "[dry-run] " ++ task.id ++ ": " ++ task.label ++ "\n  " ++ cmdText task.command ++ "\n"

/-- The body of the `try:` block of `_execute` (lines 252-268): spawn,
drain the stream, wait, record `ok`/`failed` with exit code and end
timestamp, write the completion/failure banner.  `some e` is an
exception reaching the `except` clause. -/
def tryBody (procB : String → ProcBehavior) (o : SinkOracle) (task : Task)
    (s : RState) : RState × Option String :=
  match procB task.id with
  | .launchFault msg => (s, some msg)
  | .runsTo lines outcome =>
    let s1 := { s with launched := s.launched ++ [(task.id, resolvedCmd task)] }
    match writeLines o lines s1 with
    | (s2, some e) => (s2, some e)
    | (s2, none) =>
      match outcome with
      | .error msg => (s2, some msg)
      | .ok rc =>
        if rc = 0 then
          let (t1, s3) := tick s2
          let s4 := setStatus s3 task.id fun st =>
            { st with state := "ok", end_ts := some t1, rc := some rc }
          sinkWrite o s4 ("=== ✓ " ++ task.label ++ " completed (rc=0) ===\n")
        else
          let (t1, s3) := tick s2
          let s4 := setStatus s3 task.id fun st =>
            { st with
                state := "failed"
                end_ts := some t1
                rc := some rc
                message := "rc=" ++ toString rc }
          sinkWrite o s4 ("=== ✗ " ++ task.label ++ " FAILED (rc=" ++ toString rc ++ ") ===\n")

/-- `TaskRunner._execute` (lines 247-271).  The start banner write and
the write inside the `except` clause are outside the `try:` block, so
an exception they raise escapes (`Except.error`); everything the
`try:` body raises is converted to a `failed` status. -/
def execute (procB : String → ProcBehavior) (o : SinkOracle) (task : Task)
    (s : RState) : Except String RState :=
  let (t0, s1) := tick s
  let s2 := setStatus s1 task.id fun st =>
    { st with state := "running", start_ts := some t0, message := "" }
  match sinkWrite o s2 (startBanner task) with
  | (_, some e) => .error e
  | (s3, none) =>
    match tryBody procB o task s3 with
    | (s4, none) => .ok s4
    | (s4, some e) =>
      let (t1, s5) := tick s4
      let s6 := setStatus s5 task.id fun st =>
        { st with state := "failed", end_ts := some t1, message := e }
      match sinkWrite o s6 ("*** Exception running " ++ task.id ++ ": " ++ e ++ "\n") with
      | (_, some e2) => .error e2
      | (s7, none) => .ok s7

/-- The dry-run / execute tail of a loop iteration (lines 235-239),
reached when the task is neither canceled nor dependency-skipped. -/
def runStepRest (procB : String → ProcBehavior) (o : SinkOracle) (dry : Bool)
    (task : Task) (s : RState) : Except String RState :=
  if dry then
    let s1 := setStatus s task.id fun st =>
      { st with state := "skipped", message := "Dry-run (skipped execution)" }
    match sinkWrite o s1 (dryPreview task) with
    | (s2, none) => .ok s2
    | (_, some e) => .error e
  else
    execute procB o task s

/-- One iteration of the `for tid in final_order` loop (lines 226-239).
`extCancel idx` tells whether an external `cancel()` call has happened
by the time of the `idx`-th `is_set()` check; the event is set-only, so
the flag is OR-accumulated.  `failed_dep` is looked up with Python
truthiness: a found empty-string identifier does not trigger the skip.
A `tid` absent from the dict would raise `KeyError` (proved unreachable
for orders produced by `linearize`). -/
def runStep (tasks : List Task) (procB : String → ProcBehavior) (o : SinkOracle)
    (dry : Bool) (extCancel : Nat → Bool) (idx : Nat) (tid : String)
    (s : RState) : Except String RState :=
  let s0 := { s with cancelFlag := s.cancelFlag || extCancel idx }
  if s0.cancelFlag then
    .ok (setStatus s0 tid fun st =>
      { st with state := "canceled", message := "Canceled before start" })
  else
    match lookupTask tasks tid with
    | none => .error ("KeyError: " ++ tid)
    | some task =>
      match task.depends_on.find? (fun d =>
          (getStatus s0 d).state == "failed" || (getStatus s0 d).state == "canceled") with
      | some d =>
        if d = "" then runStepRest procB o dry task s0
        else
          .ok (setStatus s0 tid fun st =>
            { st with
                state := "skipped"
                message := "Skipped due to failed dependency: " ++ d })
      | none => runStepRest procB o dry task s0

/-- The `for tid in final_order` loop, threading the iteration index
for the cancel oracle. -/
def runLoop (tasks : List Task) (procB : String → ProcBehavior) (o : SinkOracle)
    (dry : Bool) (extCancel : Nat → Bool) :
    List String → Nat → RState → Except String RState
  | [], _, s => .ok s
  | tid :: rest, idx, s =>
    match runStep tasks procB o dry extCancel idx tid s with
    | .error e => .error e
    | .ok s' => runLoop tasks procB o dry extCancel rest (idx + 1) s'

/-- `TaskRunner.run`: linearize, then iterate. -/
def run (tasks : List Task) (selected : Option (List String)) (dry : Bool)
    (extCancel : Nat → Bool) (procB : String → ProcBehavior) (o : SinkOracle)
    (s : RState) : Except String RState :=
  runLoop tasks procB o dry extCancel (linearize tasks selected) 0 s

/-- `TaskRunner.cancel`: set the cancel event. -/
def cancel (s : RState) : RState := { s with cancelFlag := true }

/-- No external `cancel()` call happens during the run. -/
def noCancel : Nat → Bool := fun _ => false

/-! ### Graph notions used by the specification -/

/-- Transitive closure, within the definition set, of the requested
identifiers: the requested identifiers that are present, plus,
recursively, every present dependency of a member. -/
inductive InClosure (tasks : List Task) (roots : List String) : String → Prop where
  | root (tid : String) : tid ∈ roots → tid ∈ taskIds tasks → InClosure tasks roots tid
  | dep (t d : String) : InClosure tasks roots t → d ∈ depsOf tasks t →
      d ∈ taskIds tasks → InClosure tasks roots d

/-- Every present dependency of a member is itself a member. -/
def closedUnder (tasks : List Task) (l : List String) : Prop :=
  ∀ t ∈ l, ∀ d ∈ depsOf tasks t, d ∈ taskIds tasks → d ∈ l

/-- Every element's present dependencies occur strictly before it. -/
def topoOK (tasks : List Task) (l : List String) : Prop :=
  ∀ (i : Nat) (h : i < l.length), ∀ d ∈ depsOf tasks (l.get ⟨i, h⟩),
    d ∈ taskIds tasks → d ∈ l.take i

/-- Acyclicity of the dependency edges, witnessed by a rank function
that strictly decreases along every present edge. -/
def rankOk (tasks : List Task) (r : String → Nat) : Prop :=
  ∀ t ∈ tasks, ∀ d ∈ t.depends_on, d ∈ taskIds tasks → r d < r t.id

/-- DFS bookkeeping: `seen` is exactly the finished identifiers
(`ordered`) together with the identifiers on the recursion stack. -/
def SeenInv (st : List String × List String) (gray : List String) : Prop :=
  ∀ x, x ∈ st.1 ↔ (x ∈ st.2 ∨ x ∈ gray)

/-- The number of distinct present identifiers not yet seen: the DFS
fuel budget is measured against it. -/
def unseen (tasks : List Task) (seen : List String) : Nat :=
  ((taskIds tasks).dedup.filter (fun k => k ∉ seen)).length

/-- What one DFS call does to the state, unconditionally: `seen` only
grows, `ordered` is extended by fresh, present identifiers, and the
`SeenInv` bookkeeping (hence `Nodup`) is preserved. -/
def Bconc (tasks : List Task) (st st' : List String × List String) : Prop :=
  (∀ x ∈ st.1, x ∈ st'.1) ∧
  (∃ Δ, st'.2 = st.2 ++ Δ ∧ ∀ x ∈ Δ, x ∉ st.1 ∧ x ∈ taskIds tasks) ∧
  (∀ gray, SeenInv st gray → SeenInv st' gray ∧ (st.2.Nodup → st'.2.Nodup))

/-! ### The rich DFS pass: under acyclicity and sufficient fuel, the
finished list is dependency-closed, topologically ordered, contains the
visited identifier, and only grows by identifiers in its closure. -/

/-- The conclusions of one sufficiently fueled visit. -/
def VisitRichP (tasks : List Task) (r : String → Nat) (fuel : Nat) : Prop :=
  ∀ tid st gray, tid ∈ taskIds tasks →
    (∀ g ∈ gray, r tid < r g) →
    SeenInv st gray →
    closedUnder tasks st.2 →
    topoOK tasks st.2 →
    unseen tasks st.1 < fuel →
    closedUnder tasks (dfsVisit tasks fuel tid st).2 ∧
    topoOK tasks (dfsVisit tasks fuel tid st).2 ∧
    tid ∈ (dfsVisit tasks fuel tid st).2 ∧
    (∀ x ∈ (dfsVisit tasks fuel tid st).2, x ∈ st.2 ∨ InClosure tasks [tid] x)

/-! ### Assembly: properties of `linearize` -/

/-- The `ordered` list of `run` before the (redundant) dedup pass. -/
def dfsOrdered (tasks : List Task) (selected : Option (List String)) : List String :=
  (dfsAll tasks (tasks.length + 1) (toRunOf tasks selected) ([], [])).2

/-- The terminal state `_execute` records, as a function of the process
behaviour: `ok` exactly on exit code 0, `failed` otherwise. -/
def execState : ProcBehavior → String
  | .launchFault _ => "failed"
  | .runsTo _ (.ok rc) => if rc = 0 then "ok" else "failed"
  | .runsTo _ (.error _) => "failed"

/-- The message `_execute` leaves: cleared on success, `rc=<code>` on a
non-zero exit, the fault description on an exception. -/
def execMsg : ProcBehavior → String
  | .launchFault m => m
  | .runsTo _ (.ok rc) => if rc = 0 then "" else "rc=" ++ toString rc
  | .runsTo _ (.error m) => m

/-- The recorded exit code: the process's code when it exited, the
stale previous value when an exception interrupted execution. -/
def execRc : ProcBehavior → Option Int → Option Int
  | .launchFault _, old => old
  | .runsTo _ (.ok rc), _ => some rc
  | .runsTo _ (.error _), old => old

/-- The ghost launch record: empty when spawning itself failed. -/
def execLaunch (task : Task) : ProcBehavior → List (String × List String)
  | .launchFault _ => []
  | .runsTo _ _ => [(task.id, resolvedCmd task)]

/-- The loop body with the cancel check already resolved to `false`:
`runStep` reduces to this when no cancellation is pending. -/
def runStepNC (tasks : List Task) (procB : String → ProcBehavior) (o : SinkOracle)
    (dry : Bool) (tid : String) (s : RState) : Except String RState :=
  match lookupTask tasks tid with
  | none => .error ("KeyError: " ++ tid)
  | some task =>
    match task.depends_on.find? (fun d =>
        (getStatus s d).state == "failed" || (getStatus s d).state == "canceled") with
    | some d =>
      if d = "" then runStepRest procB o dry task s
      else
        .ok (setStatus s tid fun st =>
          { st with
              state := "skipped"
              message := "Skipped due to failed dependency: " ++ d })
    | none => runStepRest procB o dry task s

/-- The preview line a dry run writes for an identifier of the
definition set. -/
def previewOf (tasks : List Task) (tid : String) : String :=
  match lookupTask tasks tid with
  | some task => dryPreview task
  | none => ""

/-- What the skip rule guarantees for a task processed in a non-dry,
non-canceled run: it is in a terminal execution or skip state; it is
skipped exactly when some direct prerequisite's state is failed or
canceled; and a skip message names the first such prerequisite in
declaration order. -/
def DoneC2 (tasks : List Task) (s : RState) (tid : String) : Prop :=
  ((getStatus s tid).state = "skipped" ∨ (getStatus s tid).state = "ok" ∨
    (getStatus s tid).state = "failed") ∧
  ((getStatus s tid).state = "skipped" ↔
    ∃ d ∈ depsOf tasks tid, (getStatus s d).state = "failed" ∨
      (getStatus s d).state = "canceled") ∧
  ((getStatus s tid).state = "skipped" →
    ∃ d, (depsOf tasks tid).find? (fun x =>
        (getStatus s x).state == "failed" || (getStatus s x).state == "canceled") = some d ∧
      (getStatus s tid).message = "Skipped due to failed dependency: " ++ d)

def exA : Task := { id := "A", label := "task A", command := .argv ["echo", "a"] }

def exB : Task :=
  { id := "B", label := "task B", command := .argv ["echo", "b"], depends_on := ["A"] }

def exC : Task :=
  { id := "C", label := "task C", command := .shellLine "echo c", depends_on := ["B", "X"] }

def exTasks : List Task := [exA, exB, exC]

def exRank : String → Nat := fun tid => if tid = "A" then 0 else if tid = "B" then 1 else 2

def sink0 : SinkOracle := ⟨fun _ => none⟩

def sinkBoom : SinkOracle := ⟨fun _ => some "sink write raised"⟩

def pbOk : String → ProcBehavior := fun _ => .runsTo ["line"] (.ok 0)

def pbAfails : String → ProcBehavior :=
  fun tid => if tid = "A" then .runsTo [] (.ok 3) else .runsTo [] (.ok 0)

/-- The state of the fixture engine after a first run in which `A`
failed. -/
def exS1 : RState :=
  (run exTasks none false noCancel pbAfails sink0 initState).toOption.getD initState

/-! ### Theorems -/

theorem dfsVisit_succ (tasks : List Task) (fuel : Nat) (tid : String)
    (st : List String × List String) :
    dfsVisit tasks (fuel + 1) tid st =
      if tid ∈ st.1 then st
      else
        ((dfsDeps tasks fuel (depsOf tasks tid) (tid :: st.1, st.2)).1,
          (dfsDeps tasks fuel (depsOf tasks tid) (tid :: st.1, st.2)).2 ++ [tid]) := rfl

theorem dfsDeps_nil (tasks : List Task) (fuel : Nat) (st : List String × List String) :
    dfsDeps tasks fuel [] st = st := rfl

theorem dfsDeps_cons (tasks : List Task) (fuel : Nat) (d : String) (ds : List String)
    (st : List String × List String) :
    dfsDeps tasks fuel (d :: ds) st =
      dfsDeps tasks fuel ds
        (if (lookupTask tasks d).isSome then dfsVisit tasks fuel d st else st) := rfl

theorem dfsAll_nil (tasks : List Task) (fuel : Nat) (st : List String × List String) :
    dfsAll tasks fuel [] st = st := rfl

theorem dfsAll_cons (tasks : List Task) (fuel : Nat) (tid : String) (roots : List String)
    (st : List String × List String) :
    dfsAll tasks fuel (tid :: roots) st =
      dfsAll tasks fuel roots
        (if (lookupTask tasks tid).isSome then dfsVisit tasks fuel tid st else st) := rfl

theorem lookupTask_isSome_iff (tasks : List Task) (tid : String) :
    (lookupTask tasks tid).isSome ↔ tid ∈ taskIds tasks := by
  unfold lookupTask taskIds
  rw [List.find?_isSome]
  constructor
  · rintro ⟨t, ht, he⟩
    exact List.mem_map.mpr ⟨t, List.mem_reverse.mp ht, beq_iff_eq.mp he⟩
  · intro h
    obtain ⟨t, ht, he⟩ := List.mem_map.mp h
    exact ⟨t, List.mem_reverse.mpr ht, beq_iff_eq.mpr he⟩

theorem lookupTask_eq_some (tasks : List Task) (tid : String) (t : Task)
    (h : lookupTask tasks tid = some t) : t ∈ tasks ∧ t.id = tid := by
  unfold lookupTask at h
  have hp := List.find?_some h
  simp only [beq_iff_eq] at hp
  exact ⟨List.mem_reverse.mp (List.mem_of_find?_eq_some h), hp⟩

theorem depsOf_eq_of_lookup (tasks : List Task) (tid : String) (t : Task)
    (h : lookupTask tasks tid = some t) : depsOf tasks tid = t.depends_on := by
  unfold depsOf
  rw [h]
  rfl

theorem rank_lt_of_dep (tasks : List Task) (r : String → Nat) (hr : rankOk tasks r)
    (tid d : String) (htid : tid ∈ taskIds tasks) (hd : d ∈ depsOf tasks tid)
    (hdid : d ∈ taskIds tasks) : r d < r tid := by
  obtain ⟨t, ht⟩ := Option.isSome_iff_exists.mp ((lookupTask_isSome_iff tasks tid).mpr htid)
  obtain ⟨htm, hid⟩ := lookupTask_eq_some tasks tid t ht
  rw [depsOf_eq_of_lookup tasks tid t ht] at hd
  calc r d < r t.id := hr t htm d hd hdid
    _ = r tid := by rw [hid]

/-! ### Counting lemmas for the DFS fuel -/

theorem filter_length_mono {α : Type} (p q : α → Bool)
    (h : ∀ x, p x = true → q x = true) :
    ∀ l : List α, (l.filter p).length ≤ (l.filter q).length := by
  intro l
  induction l with
  | nil => simp
  | cons a l ih =>
    by_cases hp : p a = true
    · rw [List.filter_cons_of_pos hp, List.filter_cons_of_pos (h a hp)]
      simpa using ih
    · rw [List.filter_cons_of_neg (by simpa using hp)]
      by_cases hq : q a = true
      · rw [List.filter_cons_of_pos hq]
        exact ih.trans (Nat.le_succ _)
      · rw [List.filter_cons_of_neg (by simpa using hq)]
        exact ih

theorem unseen_mono (tasks : List Task) (seen seen' : List String)
    (h : ∀ x ∈ seen, x ∈ seen') : unseen tasks seen' ≤ unseen tasks seen := by
  apply filter_length_mono
  intro x hx
  simp only [decide_eq_true_eq] at hx ⊢
  exact fun hmem => hx (h x hmem)

theorem unseen_cons (tasks : List Task) (seen : List String) (tid : String)
    (htid : tid ∈ taskIds tasks) (hns : tid ∉ seen) :
    unseen tasks (tid :: seen) + 1 = unseen tasks seen := by
  unfold unseen
  have hl : tid ∈ (taskIds tasks).dedup := List.mem_dedup.mpr htid
  have hnd : (taskIds tasks).dedup.Nodup := List.nodup_dedup _
  revert hl hnd
  generalize (taskIds tasks).dedup = l
  intro hl hnd
  induction l with
  | nil => cases hl
  | cons a l ih =>
    rcases List.mem_cons.mp hl with heq | hal
    · subst heq
      have hna : tid ∉ l := (List.nodup_cons.mp hnd).1
      rw [List.filter_cons_of_neg (by simp), List.filter_cons_of_pos (by simpa using hns)]
      have hfe : l.filter (fun k => decide (k ∉ tid :: seen)) =
          l.filter (fun k => decide (k ∉ seen)) := by
        apply List.filter_congr
        intro x hx
        have hxa : x ≠ tid := fun h => hna (h ▸ hx)
        simp [List.mem_cons, hxa]
      rw [hfe, List.length_cons]
    · have hnd' : l.Nodup := (List.nodup_cons.mp hnd).2
      by_cases ha : a ∈ seen
      · rw [List.filter_cons_of_neg (by simp [ha]), List.filter_cons_of_neg (by simp [ha])]
        exact ih hal hnd'
      · have hata : a ∉ tid :: seen ∨ a = tid := by
          by_cases hat : a = tid
          · right; exact hat
          · left; simp [List.mem_cons, hat, ha]
        rcases hata with hout | rfl
        · rw [List.filter_cons_of_pos (by simpa using hout),
            List.filter_cons_of_pos (by simpa using ha)]
          simp only [List.length_cons]
          rw [Nat.succ_add]
          exact congrArg Nat.succ (ih hal hnd')
        · exact absurd hal (List.nodup_cons.mp hnd).1

theorem Bconc_refl (tasks : List Task) (st : List String × List String) :
    Bconc tasks st st :=
  ⟨fun _ h => h, ⟨[], by simp, by simp⟩, fun _ h => ⟨h, fun h2 => h2⟩⟩

theorem Bconc_trans (tasks : List Task) (s0 s1 s2 : List String × List String)
    (h01 : Bconc tasks s0 s1) (h12 : Bconc tasks s1 s2) : Bconc tasks s0 s2 := by
  obtain ⟨hs01, ⟨d1, hd1, hf1⟩, hg01⟩ := h01
  obtain ⟨hs12, ⟨d2, hd2, hf2⟩, hg12⟩ := h12
  refine ⟨fun x hx => hs12 x (hs01 x hx), ⟨d1 ++ d2, ?_, ?_⟩, ?_⟩
  · rw [hd2, hd1, List.append_assoc]
  · intro x hx
    rcases List.mem_append.mp hx with h | h
    · exact hf1 x h
    · exact ⟨fun hmem => (hf2 x h).1 (hs01 x hmem), (hf2 x h).2⟩
  · intro gray hInv
    obtain ⟨hInv1, hnd1⟩ := hg01 gray hInv
    obtain ⟨hInv2, hnd2⟩ := hg12 gray hInv1
    exact ⟨hInv2, fun h => hnd2 (hnd1 h)⟩

theorem dfsDeps_basic (tasks : List Task) (fuel : Nat)
    (hv : ∀ tid st, tid ∈ taskIds tasks → Bconc tasks st (dfsVisit tasks fuel tid st)) :
    ∀ ds st, Bconc tasks st (dfsDeps tasks fuel ds st) := by
  intro ds
  induction ds with
  | nil =>
    intro st
    rw [dfsDeps_nil]
    exact Bconc_refl tasks st
  | cons d ds ih =>
    intro st
    rw [dfsDeps_cons]
    by_cases h : (lookupTask tasks d).isSome
    · rw [if_pos h]
      exact Bconc_trans tasks st _ _ (hv d st ((lookupTask_isSome_iff tasks d).mp h)) (ih _)
    · rw [if_neg h]
      exact ih st

theorem dfsVisit_basic (tasks : List Task) :
    ∀ fuel tid st, tid ∈ taskIds tasks → Bconc tasks st (dfsVisit tasks fuel tid st) := by
  intro fuel
  induction fuel with
  | zero =>
    intro tid st _
    exact Bconc_refl tasks st
  | succ fuel ih =>
    intro tid st htid
    rw [dfsVisit_succ]
    by_cases hseen : tid ∈ st.1
    · rw [if_pos hseen]
      exact Bconc_refl tasks st
    · rw [if_neg hseen]
      have hloop := dfsDeps_basic tasks fuel ih (depsOf tasks tid) (tid :: st.1, st.2)
      obtain ⟨hsub, ⟨Δ, hΔ, hfresh⟩, hgray⟩ := hloop
      refine ⟨?_, ⟨Δ ++ [tid], ?_, ?_⟩, ?_⟩
      · intro x hx
        exact hsub x (List.mem_cons_of_mem tid hx)
      · rw [hΔ]
        simp [List.append_assoc]
      · intro x hx
        rcases List.mem_append.mp hx with h | h
        · have := hfresh x h
          exact ⟨fun hmem => this.1 (List.mem_cons_of_mem tid hmem), this.2⟩
        · rw [List.mem_singleton.mp h]
          exact ⟨hseen, htid⟩
      · intro gray hInv
        have hInv1 : SeenInv (tid :: st.1, st.2) (tid :: gray) := by
          intro x
          have := hInv x
          simp only [List.mem_cons] at *
          tauto
        obtain ⟨hInv2, hnd2⟩ := hgray (tid :: gray) hInv1
        constructor
        · intro x
          have := hInv2 x
          simp only [List.mem_append, List.mem_singleton, List.mem_cons] at *
          tauto
        · intro hnd
          have hndl : (dfsDeps tasks fuel (depsOf tasks tid) (tid :: st.1, st.2)).2.Nodup :=
            hnd2 hnd
          have htid2 : tid ∉ (dfsDeps tasks fuel (depsOf tasks tid) (tid :: st.1, st.2)).2 := by
            rw [hΔ]
            intro hmem
            rcases List.mem_append.mp hmem with h | h
            · exact hseen ((hInv tid).mpr (Or.inl h))
            · exact (hfresh tid h).1 (List.mem_cons_self tid st.1)
          simp only [List.nodup_append, List.nodup_cons, List.nodup_nil]
          exact ⟨hndl, ⟨by simp, by simp⟩, by
            intro x hx
            simp only [List.mem_singleton]
            intro he
            exact htid2 (he ▸ hx)⟩

/-! ### Closure lemmas -/

theorem inClosure_mem_ids (tasks : List Task) (roots : List String) (x : String)
    (h : InClosure tasks roots x) : x ∈ taskIds tasks := by
  induction h with
  | root _ _ hid => exact hid
  | dep _ _ _ _ hid _ => exact hid

theorem inClosure_widen (tasks : List Task) (roots : List String) (t x : String)
    (ht : t ∈ roots) (h : InClosure tasks [t] x) : InClosure tasks roots x := by
  induction h with
  | root y hy hid =>
    rw [List.mem_singleton.mp hy]
    exact InClosure.root t ht (List.mem_singleton.mp hy ▸ hid)
  | dep a d _ hd hid ih => exact InClosure.dep a d ih hd hid

theorem inClosure_trans (tasks : List Task) (roots : List String) (d x : String)
    (hx : InClosure tasks [d] x) (hd : InClosure tasks roots d) :
    InClosure tasks roots x := by
  induction hx with
  | root y hy _ => exact List.mem_singleton.mp hy ▸ hd
  | dep a b _ hb hid ih => exact InClosure.dep a b ih hb hid

theorem closed_reach (tasks : List Task) (l : List String) (d x : String)
    (hc : closedUnder tasks l) (hd : d ∈ l) (h : InClosure tasks [d] x) : x ∈ l := by
  induction h with
  | root y hy _ => exact List.mem_singleton.mp hy ▸ hd
  | dep a b _ hb hid ih => exact hc a ih b hb hid

/-! ### Topological-order lemmas -/

theorem topoOK_nil (tasks : List Task) : topoOK tasks [] := by
  intro i hi
  simp at hi

theorem topoOK_concat (tasks : List Task) (l : List String) (x : String)
    (h : topoOK tasks l) (hx : ∀ d ∈ depsOf tasks x, d ∈ taskIds tasks → d ∈ l) :
    topoOK tasks (l ++ [x]) := by
  intro i hi d hd hdid
  by_cases hil : i < l.length
  · have e1 : (l ++ [x]).get ⟨i, hi⟩ = l.get ⟨i, hil⟩ := by
      simp only [List.get_eq_getElem]
      exact List.getElem_append_left hil
    rw [e1] at hd
    have e2 : (l ++ [x]).take i = l.take i :=
      List.take_append_of_le_length (le_of_lt hil)
    rw [e2]
    exact h i hil d hd hdid
  · have hlen : i < l.length + 1 := by
      have := hi
      simpa using this
    have hieq : i = l.length := by omega
    subst hieq
    have e1 : (l ++ [x]).get ⟨l.length, hi⟩ = x := by
      simp [List.get_eq_getElem]
    rw [e1] at hd
    have e2 : (l ++ [x]).take l.length = l := by
      rw [List.take_append_of_le_length (le_refl _), List.take_length]
    rw [e2]
    exact hx d hd hdid

theorem dfsDeps_rich (tasks : List Task) (r : String → Nat) (hr : rankOk tasks r)
    (fuel : Nat) (hv : VisitRichP tasks r fuel) :
    ∀ ds parent gray st, parent ∈ taskIds tasks →
      (∀ d ∈ ds, d ∈ depsOf tasks parent) →
      (∀ g ∈ gray, r parent < r g) →
      SeenInv st (parent :: gray) →
      closedUnder tasks st.2 →
      topoOK tasks st.2 →
      unseen tasks st.1 < fuel →
      closedUnder tasks (dfsDeps tasks fuel ds st).2 ∧
      topoOK tasks (dfsDeps tasks fuel ds st).2 ∧
      (∀ d ∈ ds, d ∈ taskIds tasks → d ∈ (dfsDeps tasks fuel ds st).2) ∧
      (∀ x ∈ (dfsDeps tasks fuel ds st).2, x ∈ st.2 ∨ InClosure tasks [parent] x) := by
  intro ds
  induction ds with
  | nil =>
    intro parent gray st _ _ _ _ hclosed htopo _
    rw [dfsDeps_nil]
    exact ⟨hclosed, htopo, fun d hd => absurd hd (List.not_mem_nil d), fun x hx => Or.inl hx⟩
  | cons d ds ih =>
    intro parent gray st hparent hds hgray hInv hclosed htopo hfuel
    rw [dfsDeps_cons]
    by_cases hsome : (lookupTask tasks d).isSome
    · rw [if_pos hsome]
      have hdid : d ∈ taskIds tasks := (lookupTask_isSome_iff tasks d).mp hsome
      have hddep : d ∈ depsOf tasks parent := hds d (List.mem_cons_self d ds)
      have hrd : r d < r parent := rank_lt_of_dep tasks r hr parent d hparent hddep hdid
      have hgray' : ∀ g ∈ parent :: gray, r d < r g := by
        intro g hg
        rcases List.mem_cons.mp hg with rfl | hgm
        · exact hrd
        · exact lt_trans hrd (hgray g hgm)
      have hvis := hv d st (parent :: gray) hdid hgray' hInv hclosed htopo hfuel
      obtain ⟨hc1, ht1, hm1, htag1⟩ := hvis
      have hbasic := dfsVisit_basic tasks fuel d st hdid
      obtain ⟨hsub1, ⟨Δ1, hΔ1, _⟩, hg1⟩ := hbasic
      have hInv1 : SeenInv (dfsVisit tasks fuel d st) (parent :: gray) :=
        (hg1 (parent :: gray) hInv).1
      have hfuel1 : unseen tasks (dfsVisit tasks fuel d st).1 < fuel :=
        lt_of_le_of_lt (unseen_mono tasks st.1 _ hsub1) hfuel
      have hrest := ih parent gray (dfsVisit tasks fuel d st) hparent
        (fun e he => hds e (List.mem_cons_of_mem d he)) hgray hInv1 hc1 ht1 hfuel1
      obtain ⟨hc2, ht2, hm2, htag2⟩ := hrest
      have hmono2 : ∀ x ∈ (dfsVisit tasks fuel d st).2,
          x ∈ (dfsDeps tasks fuel ds (dfsVisit tasks fuel d st)).2 := by
        have hb2 := dfsDeps_basic tasks fuel (dfsVisit_basic tasks fuel) ds
          (dfsVisit tasks fuel d st)
        obtain ⟨_, ⟨Δ2, hΔ2, _⟩, _⟩ := hb2
        intro x hx
        rw [hΔ2]
        exact List.mem_append_left _ hx
      have hpd : InClosure tasks [parent] d :=
        InClosure.dep parent d (InClosure.root parent (List.mem_singleton.mpr rfl) hparent)
          hddep hdid
      refine ⟨hc2, ht2, ?_, ?_⟩
      · intro e he hei
        rcases List.mem_cons.mp he with rfl | hem
        · exact hmono2 e hm1
        · exact hm2 e hem hei
      · intro x hx
        rcases htag2 x hx with hx1 | hx2
        · rcases htag1 x hx1 with hx0 | hcl
          · exact Or.inl hx0
          · exact Or.inr (inClosure_trans tasks [parent] d x hcl hpd)
        · exact Or.inr hx2
    · rw [if_neg hsome]
      have hrest := ih parent gray st hparent
        (fun e he => hds e (List.mem_cons_of_mem d he)) hgray hInv hclosed htopo hfuel
      obtain ⟨hc2, ht2, hm2, htag2⟩ := hrest
      refine ⟨hc2, ht2, ?_, htag2⟩
      intro e he hei
      rcases List.mem_cons.mp he with rfl | hem
      · exact absurd ((lookupTask_isSome_iff tasks e).mpr hei) hsome
      · exact hm2 e hem hei

theorem dfsVisit_rich (tasks : List Task) (r : String → Nat) (hr : rankOk tasks r) :
    ∀ fuel, VisitRichP tasks r fuel := by
  intro fuel
  induction fuel with
  | zero =>
    intro tid st gray _ _ _ _ _ hfuel
    exact absurd hfuel (Nat.not_lt_zero _)
  | succ fuel ih =>
    intro tid st gray htid hgray hInv hclosed htopo hfuel
    rw [dfsVisit_succ]
    by_cases hseen : tid ∈ st.1
    · rw [if_pos hseen]
      have htm : tid ∈ st.2 := by
        rcases (hInv tid).mp hseen with h | h
        · exact h
        · exact absurd (hgray tid h) (lt_irrefl _)
      exact ⟨hclosed, htopo, htm, fun x hx => Or.inl hx⟩
    · rw [if_neg hseen]
      have hInv1 : SeenInv (tid :: st.1, st.2) (tid :: gray) := by
        intro x
        have := hInv x
        simp only [List.mem_cons] at *
        tauto
      have hfuel1 : unseen tasks (tid :: st.1) < fuel := by
        have := unseen_cons tasks st.1 tid htid hseen
        omega
      have hloop := dfsDeps_rich tasks r hr fuel ih (depsOf tasks tid) tid gray
        (tid :: st.1, st.2) htid (fun d hd => hd) hgray hInv1 hclosed htopo hfuel1
      obtain ⟨hc2, ht2, hm2, htag2⟩ := hloop
      refine ⟨?_, ?_, ?_, ?_⟩
      · intro t ht d hd hdid
        rcases List.mem_append.mp ht with h | h
        · exact List.mem_append_left _ (hc2 t h d hd hdid)
        · rw [List.mem_singleton.mp h] at hd
          exact List.mem_append_left _ (hm2 d hd hdid)
      · exact topoOK_concat tasks _ tid ht2 (fun d hd hdid => hm2 d hd hdid)
      · exact List.mem_append_right _ (List.mem_singleton.mpr rfl)
      · intro x hx
        rcases List.mem_append.mp hx with h | h
        · rcases htag2 x h with h0 | hcl
          · exact Or.inl h0
          · exact Or.inr hcl
        · rw [List.mem_singleton.mp h]
          exact Or.inr (InClosure.root tid (List.mem_singleton.mpr rfl) htid)

theorem dfsAll_eq_dfsDeps (tasks : List Task) (fuel : Nat) (roots : List String)
    (st : List String × List String) :
    dfsAll tasks fuel roots st = dfsDeps tasks fuel roots st := rfl

theorem unseen_nil_le (tasks : List Task) : unseen tasks [] ≤ tasks.length := by
  unfold unseen
  calc ((taskIds tasks).dedup.filter (fun k => decide (k ∉ ([] : List String)))).length
      ≤ (taskIds tasks).dedup.length := List.length_filter_le _ _
    _ ≤ (taskIds tasks).length := List.Sublist.length_le ((taskIds tasks).dedup_sublist)
    _ = tasks.length := List.length_map _ _

theorem seenInv_init : SeenInv (([] : List String), ([] : List String)) [] := by
  intro x
  simp

theorem dfsOrdered_nodup_sub (tasks : List Task) (selected : Option (List String)) :
    (dfsOrdered tasks selected).Nodup ∧
    ∀ x ∈ dfsOrdered tasks selected, x ∈ taskIds tasks := by
  have hb := dfsDeps_basic tasks (tasks.length + 1) (dfsVisit_basic tasks (tasks.length + 1))
    (toRunOf tasks selected) ([], [])
  obtain ⟨_, ⟨Δ, hΔ, hfresh⟩, hgray⟩ := hb
  have hres : dfsOrdered tasks selected =
      (dfsDeps tasks (tasks.length + 1) (toRunOf tasks selected) ([], [])).2 := rfl
  constructor
  · rw [hres]
    exact (hgray [] seenInv_init).2 List.nodup_nil
  · intro x hx
    rw [hres, hΔ, List.nil_append] at hx
    exact (hfresh x hx).2

theorem dedupFirst_eq_self (l added : List String) (hnd : l.Nodup)
    (hdis : ∀ x ∈ l, x ∉ added) : dedupFirst l added = l := by
  induction l generalizing added with
  | nil => rfl
  | cons a l ih =>
    unfold dedupFirst
    rw [if_neg (hdis a (List.mem_cons_self a l))]
    have hnd' := List.nodup_cons.mp hnd
    congr 1
    apply ih (a :: added) hnd'.2
    intro x hx
    intro hmem
    rcases List.mem_cons.mp hmem with rfl | hm
    · exact hnd'.1 hx
    · exact hdis x (List.mem_cons_of_mem a hx) hm

theorem linearize_eq_ordered (tasks : List Task) (selected : Option (List String)) :
    linearize tasks selected = dfsOrdered tasks selected := by
  unfold linearize
  exact dedupFirst_eq_self _ [] (dfsOrdered_nodup_sub tasks selected).1 (by simp)

theorem linearize_nodup (tasks : List Task) (selected : Option (List String)) :
    (linearize tasks selected).Nodup := by
  rw [linearize_eq_ordered]
  exact (dfsOrdered_nodup_sub tasks selected).1

theorem linearize_sub_ids (tasks : List Task) (selected : Option (List String)) :
    ∀ x ∈ linearize tasks selected, x ∈ taskIds tasks := by
  rw [linearize_eq_ordered]
  exact (dfsOrdered_nodup_sub tasks selected).2

theorem dfsAll_rich (tasks : List Task) (r : String → Nat) (hr : rankOk tasks r)
    (fuel : Nat) :
    ∀ roots st, SeenInv st [] → closedUnder tasks st.2 → topoOK tasks st.2 →
      unseen tasks st.1 < fuel →
      closedUnder tasks (dfsAll tasks fuel roots st).2 ∧
      topoOK tasks (dfsAll tasks fuel roots st).2 ∧
      (∀ root ∈ roots, root ∈ taskIds tasks → root ∈ (dfsAll tasks fuel roots st).2) ∧
      (∀ x ∈ (dfsAll tasks fuel roots st).2,
        x ∈ st.2 ∨ ∃ root, root ∈ roots ∧ InClosure tasks [root] x) := by
  intro roots
  induction roots with
  | nil =>
    intro st _ hclosed htopo _
    rw [dfsAll_nil]
    exact ⟨hclosed, htopo, fun root hr2 => absurd hr2 (List.not_mem_nil root),
      fun x hx => Or.inl hx⟩
  | cons root roots ih =>
    intro st hInv hclosed htopo hfuel
    rw [dfsAll_cons]
    by_cases hsome : (lookupTask tasks root).isSome
    · rw [if_pos hsome]
      have hrid : root ∈ taskIds tasks := (lookupTask_isSome_iff tasks root).mp hsome
      have hvis := dfsVisit_rich tasks r hr fuel root st [] hrid (by simp) hInv hclosed
        htopo hfuel
      obtain ⟨hc1, ht1, hm1, htag1⟩ := hvis
      have hbasic := dfsVisit_basic tasks fuel root st hrid
      obtain ⟨hsub1, _, hg1⟩ := hbasic
      have hInv1 : SeenInv (dfsVisit tasks fuel root st) [] := (hg1 [] hInv).1
      have hfuel1 : unseen tasks (dfsVisit tasks fuel root st).1 < fuel :=
        lt_of_le_of_lt (unseen_mono tasks st.1 _ hsub1) hfuel
      have hrest := ih (dfsVisit tasks fuel root st) hInv1 hc1 ht1 hfuel1
      obtain ⟨hc2, ht2, hm2, htag2⟩ := hrest
      have hmono2 : ∀ x ∈ (dfsVisit tasks fuel root st).2,
          x ∈ (dfsAll tasks fuel roots (dfsVisit tasks fuel root st)).2 := by
        have hb2 := dfsDeps_basic tasks fuel (dfsVisit_basic tasks fuel) roots
          (dfsVisit tasks fuel root st)
        obtain ⟨_, ⟨Δ2, hΔ2, _⟩, _⟩ := hb2
        intro x hx
        rw [dfsAll_eq_dfsDeps, hΔ2]
        exact List.mem_append_left _ hx
      refine ⟨hc2, ht2, ?_, ?_⟩
      · intro e he hei
        rcases List.mem_cons.mp he with rfl | hem
        · exact hmono2 e hm1
        · exact hm2 e hem hei
      · intro x hx
        rcases htag2 x hx with hx1 | ⟨root2, hrm, hcl⟩
        · rcases htag1 x hx1 with hx0 | hcl
          · exact Or.inl hx0
          · exact Or.inr ⟨root, List.mem_cons_self root roots, hcl⟩
        · exact Or.inr ⟨root2, List.mem_cons_of_mem root hrm, hcl⟩
    · rw [if_neg hsome]
      have hrest := ih st hInv hclosed htopo hfuel
      obtain ⟨hc2, ht2, hm2, htag2⟩ := hrest
      refine ⟨hc2, ht2, ?_, ?_⟩
      · intro e he hei
        rcases List.mem_cons.mp he with rfl | hem
        · exact absurd ((lookupTask_isSome_iff tasks e).mpr hei) hsome
        · exact hm2 e hem hei
      · intro x hx
        rcases htag2 x hx with h0 | ⟨root2, hrm, hcl⟩
        · exact Or.inl h0
        · exact Or.inr ⟨root2, List.mem_cons_of_mem root hrm, hcl⟩

theorem dfsOrdered_rich (tasks : List Task) (r : String → Nat) (hr : rankOk tasks r)
    (selected : Option (List String)) :
    closedUnder tasks (dfsOrdered tasks selected) ∧
    topoOK tasks (dfsOrdered tasks selected) ∧
    (∀ root ∈ toRunOf tasks selected, root ∈ taskIds tasks →
      root ∈ dfsOrdered tasks selected) ∧
    (∀ x ∈ dfsOrdered tasks selected,
      ∃ root, root ∈ toRunOf tasks selected ∧ InClosure tasks [root] x) := by
  have hfuel : unseen tasks [] < tasks.length + 1 :=
    Nat.lt_succ_of_le (unseen_nil_le tasks)
  have h := dfsAll_rich tasks r hr (tasks.length + 1) (toRunOf tasks selected) ([], [])
    seenInv_init (fun t ht => absurd ht (List.not_mem_nil t)) (topoOK_nil tasks) hfuel
  obtain ⟨hc, ht, hm, htag⟩ := h
  refine ⟨hc, ht, hm, ?_⟩
  intro x hx
  rcases htag x hx with h0 | h1
  · exact absurd h0 (List.not_mem_nil x)
  · exact h1

theorem linearize_mem_iff (tasks : List Task) (r : String → Nat) (hr : rankOk tasks r)
    (selected : Option (List String)) (x : String) :
    x ∈ linearize tasks selected ↔ InClosure tasks (toRunOf tasks selected) x := by
  rw [linearize_eq_ordered]
  obtain ⟨hc, _, hm, htag⟩ := dfsOrdered_rich tasks r hr selected
  constructor
  · intro hx
    obtain ⟨root, hrm, hcl⟩ := htag x hx
    exact inClosure_widen tasks _ root x hrm hcl
  · intro hcl
    induction hcl with
    | root y hy hid => exact hm y hy hid
    | dep a d hcla hd hid ih => exact hc a ih d hd hid

theorem linearize_topo (tasks : List Task) (r : String → Nat) (hr : rankOk tasks r)
    (selected : Option (List String)) : topoOK tasks (linearize tasks selected) := by
  rw [linearize_eq_ordered]
  exact (dfsOrdered_rich tasks r hr selected).2.1

theorem linearize_closed (tasks : List Task) (r : String → Nat) (hr : rankOk tasks r)
    (selected : Option (List String)) : closedUnder tasks (linearize tasks selected) := by
  rw [linearize_eq_ordered]
  exact (dfsOrdered_rich tasks r hr selected).1

/-! ### Engine lemmas: sink writes, status updates, `_execute` -/

theorem sinkWrite_eq_ok (o : SinkOracle) (ho : sinkOk o) (s : RState) (text : String) :
    sinkWrite o s text =
      ({ s with log := s.log ++ [text], writeAttempts := s.writeAttempts + 1 }, none) := by
  unfold sinkWrite
  rw [ho s.writeAttempts]

theorem writeLines_eq_ok (o : SinkOracle) (ho : sinkOk o) :
    ∀ (lines : List String) (s : RState),
      writeLines o lines s =
        ({ s with log := s.log ++ lines, writeAttempts := s.writeAttempts + lines.length },
          none) := by
  intro lines
  induction lines with
  | nil =>
    intro s
    simp [writeLines]
  | cons l ls ih =>
    intro s
    simp only [writeLines, sinkWrite_eq_ok o ho, ih]
    simp [List.append_assoc]
    omega

theorem execute_char (procB : String → ProcBehavior) (o : SinkOracle) (task : Task)
    (s : RState) (ho : sinkOk o) :
    ∃ s', execute procB o task s = .ok s' ∧
      s'.cancelFlag = s.cancelFlag ∧
      (∀ k, k ≠ task.id → s'.status k = s.status k) ∧
      (getStatus s' task.id).start_ts = some s.now ∧
      (getStatus s' task.id).end_ts.isSome = true ∧
      (getStatus s' task.id).state = execState (procB task.id) ∧
      (getStatus s' task.id).message = execMsg (procB task.id) ∧
      (getStatus s' task.id).rc = execRc (procB task.id) (getStatus s task.id).rc ∧
      s'.launched = s.launched ++ execLaunch task (procB task.id) ∧
      s'.assigns = s.assigns ++ [(task.id, "running"), (task.id, execState (procB task.id))] := by
  cases hpb : procB task.id with
  | launchFault msg =>
    simp only [execute, tryBody, hpb, sinkWrite_eq_ok o ho, tick]
    refine ⟨_, rfl, ?_⟩
    simp [execState, execMsg, execRc, execLaunch, setStatus, getStatus, hpb]
    intro k hk
    simp [hk]
  | runsTo lines outcome =>
    cases outcome with
    | ok rc =>
      by_cases hrc : rc = 0
      · subst hrc
        simp only [execute, tryBody, hpb, sinkWrite_eq_ok o ho, writeLines_eq_ok o ho,
          tick, if_pos rfl]
        refine ⟨_, rfl, ?_⟩
        simp [execState, execMsg, execRc, execLaunch, setStatus, getStatus, hpb]
        intro k hk
        simp [hk]
      · simp only [execute, tryBody, hpb, sinkWrite_eq_ok o ho, writeLines_eq_ok o ho,
          tick, if_neg hrc]
        refine ⟨_, rfl, ?_⟩
        simp [execState, execMsg, execRc, execLaunch, setStatus, getStatus, hpb, if_neg hrc]
        intro k hk
        simp [hk]
    | error msg =>
      simp only [execute, tryBody, hpb, sinkWrite_eq_ok o ho, writeLines_eq_ok o ho, tick]
      refine ⟨_, rfl, ?_⟩
      simp [execState, execMsg, execRc, execLaunch, setStatus, getStatus, hpb]
      intro k hk
      simp [hk]

theorem setStatus_cancelFlag (s : RState) (tid : String) (f : TaskStatus → TaskStatus) :
    (setStatus s tid f).cancelFlag = s.cancelFlag := rfl

theorem setStatus_log (s : RState) (tid : String) (f : TaskStatus → TaskStatus) :
    (setStatus s tid f).log = s.log := rfl

theorem setStatus_launched (s : RState) (tid : String) (f : TaskStatus → TaskStatus) :
    (setStatus s tid f).launched = s.launched := rfl

theorem setStatus_assigns (s : RState) (tid : String) (f : TaskStatus → TaskStatus) :
    (setStatus s tid f).assigns = s.assigns ++ [(tid, (f (getStatus s tid)).state)] := rfl

theorem getStatus_setStatus_self (s : RState) (tid : String) (f : TaskStatus → TaskStatus) :
    getStatus (setStatus s tid f) tid = f (getStatus s tid) := by
  simp [getStatus, setStatus]

theorem setStatus_status_ne (s : RState) (tid k : String) (f : TaskStatus → TaskStatus)
    (h : k ≠ tid) : (setStatus s tid f).status k = s.status k := by
  simp [setStatus, h]

theorem getStatus_setStatus_ne (s : RState) (tid k : String) (f : TaskStatus → TaskStatus)
    (h : k ≠ tid) : getStatus (setStatus s tid f) k = getStatus s k := by
  simp [getStatus, setStatus, h]

/-- `execState` only produces the two terminal execution states. -/
theorem execState_mem (pb : ProcBehavior) : execState pb = "ok" ∨ execState pb = "failed" := by
  cases pb with
  | launchFault m => exact Or.inr rfl
  | runsTo lines outcome =>
    cases outcome with
    | ok rc =>
      by_cases hrc : rc = 0
      · exact Or.inl (by simp [execState, hrc])
      · exact Or.inr (by simp [execState, hrc])
    | error m => exact Or.inr rfl

theorem runStep_eq_nc (tasks : List Task) (procB : String → ProcBehavior) (o : SinkOracle)
    (dry : Bool) (extCancel : Nat → Bool) (idx : Nat) (tid : String) (s : RState)
    (hflag : s.cancelFlag = false) (hext : extCancel idx = false) :
    runStep tasks procB o dry extCancel idx tid s = runStepNC tasks procB o dry tid s := by
  obtain ⟨sst, cf, lg, wa, nw, la, asg⟩ := s
  simp only at hflag
  subst hflag
  unfold runStep runStepNC
  rw [hext]
  simp

theorem runStep_cancel_char (tasks : List Task) (procB : String → ProcBehavior)
    (o : SinkOracle) (dry : Bool) (extCancel : Nat → Bool) (idx : Nat) (tid : String)
    (s : RState) (hc : (s.cancelFlag || extCancel idx) = true) :
    runStep tasks procB o dry extCancel idx tid s =
      .ok (setStatus { s with cancelFlag := true } tid fun st =>
        { st with state := "canceled", message := "Canceled before start" }) := by
  unfold runStep
  simp only [hc]
  rfl

theorem runStepRest_false (procB : String → ProcBehavior) (o : SinkOracle) (task : Task)
    (s : RState) : runStepRest procB o false task s = execute procB o task s := by
  simp [runStepRest]

theorem runStepRest_dry_char (procB : String → ProcBehavior) (o : SinkOracle) (task : Task)
    (s : RState) (ho : sinkOk o) :
    ∃ s', runStepRest procB o true task s = .ok s' ∧
      s'.cancelFlag = s.cancelFlag ∧
      (∀ k, k ≠ task.id → s'.status k = s.status k) ∧
      getStatus s' task.id =
        { getStatus s task.id with
            state := "skipped"
            message := "Dry-run (skipped execution)" } ∧
      s'.log = s.log ++ [dryPreview task] ∧
      s'.launched = s.launched ∧
      s'.assigns = s.assigns ++ [(task.id, "skipped")] ∧
      s'.now = s.now := by
  simp only [runStepRest, if_pos rfl, sinkWrite_eq_ok o ho]
  refine ⟨_, rfl, ?_⟩
  simp [setStatus, getStatus]
  intro k hk
  simp [hk]

/-- One loop iteration, for a present identifier and a well-behaved
sink: it returns normally, sets the cancel flag to the OR of the flag
and the oracle, touches no other identifier's status, only appends to
the launch and assignment trails (tagged with this identifier), and
leaves the task in one of the four non-pending states. -/
theorem runStep_char (tasks : List Task) (procB : String → ProcBehavior) (o : SinkOracle)
    (dry : Bool) (extCancel : Nat → Bool) (idx : Nat) (tid : String) (s : RState)
    (ho : sinkOk o) (hid : tid ∈ taskIds tasks) :
    ∃ s', runStep tasks procB o dry extCancel idx tid s = .ok s' ∧
      s'.cancelFlag = (s.cancelFlag || extCancel idx) ∧
      (∀ k, k ≠ tid → s'.status k = s.status k) ∧
      (∀ p ∈ s.launched, p ∈ s'.launched) ∧
      (∀ p ∈ s'.launched, p ∈ s.launched ∨ p.1 = tid) ∧
      (∀ p ∈ s'.assigns, p ∈ s.assigns ∨ p.1 = tid) ∧
      (∀ p ∈ s.assigns, p ∈ s'.assigns) ∧
      ((getStatus s' tid).state = "canceled" ∨ (getStatus s' tid).state = "skipped" ∨
        (getStatus s' tid).state = "ok" ∨ (getStatus s' tid).state = "failed") := by
  by_cases hc : (s.cancelFlag || extCancel idx) = true
  · rw [runStep_cancel_char tasks procB o dry extCancel idx tid s hc]
    refine ⟨_, rfl, ?_, ?_, ?_, ?_, ?_, ?_, ?_⟩
    · rw [setStatus_cancelFlag]
      simp [hc]
    · intro k hk
      rw [setStatus_status_ne _ _ _ _ hk]
    · intro p hp
      rw [setStatus_launched]
      exact hp
    · intro p hp
      rw [setStatus_launched] at hp
      exact Or.inl hp
    · intro p hp
      rw [setStatus_assigns] at hp
      rcases List.mem_append.mp hp with h | h
      · exact Or.inl h
      · simp at h
        exact Or.inr (by rw [h])
    · intro p hp
      rw [setStatus_assigns]
      exact List.mem_append_left _ hp
    · rw [getStatus_setStatus_self]
      exact Or.inl rfl
  · have hor : (s.cancelFlag || extCancel idx) = false := by
      cases hcc : (s.cancelFlag || extCancel idx) with
      | false => rfl
      | true => exact absurd hcc hc
    have hflag : s.cancelFlag = false := (Bool.or_eq_false_iff.mp hor).1
    have hext : extCancel idx = false := (Bool.or_eq_false_iff.mp hor).2
    rw [runStep_eq_nc tasks procB o dry extCancel idx tid s hflag hext]
    obtain ⟨task, hlk⟩ := Option.isSome_iff_exists.mp ((lookupTask_isSome_iff tasks tid).mpr hid)
    obtain ⟨_, htaskid⟩ := lookupTask_eq_some tasks tid task hlk
    unfold runStepNC
    rw [hlk]
    have hrest : ∃ s', runStepRest procB o dry task s = .ok s' ∧
        s'.cancelFlag = s.cancelFlag ∧
        (∀ k, k ≠ tid → s'.status k = s.status k) ∧
        (∀ p ∈ s.launched, p ∈ s'.launched) ∧
        (∀ p ∈ s'.launched, p ∈ s.launched ∨ p.1 = tid) ∧
        (∀ p ∈ s'.assigns, p ∈ s.assigns ∨ p.1 = tid) ∧
        (∀ p ∈ s.assigns, p ∈ s'.assigns) ∧
        ((getStatus s' tid).state = "canceled" ∨ (getStatus s' tid).state = "skipped" ∨
          (getStatus s' tid).state = "ok" ∨ (getStatus s' tid).state = "failed") := by
      cases dry with
      | true =>
        obtain ⟨s', he, hcf, hfr, hgs, hlog, hla, hasg, hnow⟩ :=
          runStepRest_dry_char procB o task s ho
        rw [htaskid] at hfr hgs hasg
        refine ⟨s', he, hcf, hfr, ?_, ?_, ?_, ?_, ?_⟩
        · intro p hp
          rw [hla]
          exact hp
        · intro p hp
          rw [hla] at hp
          exact Or.inl hp
        · intro p hp
          rw [hasg] at hp
          rcases List.mem_append.mp hp with h | h
          · exact Or.inl h
          · simp at h
            exact Or.inr (by rw [h])
        · intro p hp
          rw [hasg]
          exact List.mem_append_left _ hp
        · rw [hgs]
          exact Or.inr (Or.inl rfl)
      | false =>
        rw [runStepRest_false]
        obtain ⟨s', he, hcf, hfr, _, _, hsst, _, _, hla, hasg⟩ :=
          execute_char procB o task s ho
        rw [htaskid] at hfr hsst hasg
        refine ⟨s', he, hcf, hfr, ?_, ?_, ?_, ?_, ?_⟩
        · intro p hp
          rw [hla]
          exact List.mem_append_left _ hp
        · intro p hp
          rw [hla] at hp
          rcases List.mem_append.mp hp with h | h
          · exact Or.inl h
          · cases hpb : procB task.id with
            | launchFault m =>
              rw [hpb] at h
              simp [execLaunch] at h
            | runsTo lines outcome =>
              rw [hpb] at h
              simp [execLaunch] at h
              exact Or.inr (by rw [h, htaskid])
        · intro p hp
          rw [hasg] at hp
          rcases List.mem_append.mp hp with h | h
          · exact Or.inl h
          · simp at h
            rcases h with h1 | h1
            · exact Or.inr (by rw [h1])
            · exact Or.inr (by rw [h1])
        · intro p hp
          rw [hasg]
          exact List.mem_append_left _ hp
        · rcases execState_mem (procB tid) with h | h
          · rw [hsst, h]
            exact Or.inr (Or.inr (Or.inl rfl))
          · rw [hsst, h]
            exact Or.inr (Or.inr (Or.inr rfl))
    cases hfd : task.depends_on.find? (fun d =>
        (getStatus s d).state == "failed" || (getStatus s d).state == "canceled") with
    | some d =>
      simp only [hfd]
      by_cases hde : d = ""
      · rw [if_pos hde]
        obtain ⟨s', he, hrest2⟩ := hrest
        exact ⟨s', he, by rw [hrest2.1, hflag, hext]; rfl, hrest2.2⟩
      · rw [if_neg hde]
        refine ⟨_, rfl, ?_, ?_, ?_, ?_, ?_, ?_, ?_⟩
        · rw [setStatus_cancelFlag, hflag, hext]
          rfl
        · intro k hk
          rw [setStatus_status_ne _ _ _ _ hk]
        · intro p hp
          rw [setStatus_launched]
          exact hp
        · intro p hp
          rw [setStatus_launched] at hp
          exact Or.inl hp
        · intro p hp
          rw [setStatus_assigns] at hp
          rcases List.mem_append.mp hp with h | h
          · exact Or.inl h
          · simp at h
            exact Or.inr (by rw [h])
        · intro p hp
          rw [setStatus_assigns]
          exact List.mem_append_left _ hp
        · rw [getStatus_setStatus_self]
          exact Or.inr (Or.inl rfl)
    | none =>
      simp only [hfd]
      obtain ⟨s', he, hrest2⟩ := hrest
      exact ⟨s', he, by rw [hrest2.1, hflag, hext]; rfl, hrest2.2⟩

/-- The run loop, over present identifiers and with a well-behaved
sink, returns normally; it only touches statuses of identifiers in the
list, only appends launch/assignment records tagged with identifiers in
the list, and moves the cancel flag monotonically (set by some
`extCancel` observation, never cleared). -/
theorem runLoop_char (tasks : List Task) (procB : String → ProcBehavior) (o : SinkOracle)
    (dry : Bool) (extCancel : Nat → Bool) (ho : sinkOk o) :
    ∀ (l : List String) (idx : Nat) (s : RState), (∀ tid ∈ l, tid ∈ taskIds tasks) →
      ∃ s', runLoop tasks procB o dry extCancel l idx s = .ok s' ∧
        (∀ k, k ∉ l → s'.status k = s.status k) ∧
        (∀ p ∈ s.launched, p ∈ s'.launched) ∧
        (∀ p ∈ s'.launched, p ∈ s.launched ∨ p.1 ∈ l) ∧
        (∀ p ∈ s'.assigns, p ∈ s.assigns ∨ p.1 ∈ l) ∧
        (∀ p ∈ s.assigns, p ∈ s'.assigns) ∧
        (s.cancelFlag = true → s'.cancelFlag = true) ∧
        (s'.cancelFlag = true →
          s.cancelFlag = true ∨ ∃ i, idx ≤ i ∧ extCancel i = true) := by
  intro l
  induction l with
  | nil =>
    intro idx s _
    exact ⟨s, rfl, fun k _ => rfl, fun p hp => hp, fun p hp => Or.inl hp,
      fun p hp => Or.inl hp, fun p hp => hp, fun h => h, fun h => Or.inl h⟩
  | cons tid rest ih =>
    intro idx s hl
    obtain ⟨s1, he1, hcf1, hfr1, hlf1, hlb1, hab1, haf1, hst1⟩ :=
      runStep_char tasks procB o dry extCancel idx tid s ho (hl tid (List.mem_cons_self tid rest))
    obtain ⟨s', he', hfr', hlf', hlb', hab', haf', hmono', horig'⟩ :=
      ih (idx + 1) s1 (fun e he => hl e (List.mem_cons_of_mem tid he))
    refine ⟨s', ?_, ?_, ?_, ?_, ?_, ?_, ?_, ?_⟩
    · rw [runLoop, he1]
      exact he'
    · intro k hk
      have hk1 : k ≠ tid := fun h => hk (h ▸ List.mem_cons_self tid rest)
      have hk2 : k ∉ rest := fun h => hk (List.mem_cons_of_mem tid h)
      rw [hfr' k hk2, hfr1 k hk1]
    · intro p hp
      exact hlf' p (hlf1 p hp)
    · intro p hp
      rcases hlb' p hp with h | h
      · rcases hlb1 p h with h2 | h2
        · exact Or.inl h2
        · exact Or.inr (h2 ▸ List.mem_cons_self tid rest)
      · exact Or.inr (List.mem_cons_of_mem tid h)
    · intro p hp
      rcases hab' p hp with h | h
      · rcases hab1 p h with h2 | h2
        · exact Or.inl h2
        · exact Or.inr (h2 ▸ List.mem_cons_self tid rest)
      · exact Or.inr (List.mem_cons_of_mem tid h)
    · intro p hp
      exact haf' p (haf1 p hp)
    · intro h
      apply hmono'
      rw [hcf1, h]
      rfl
    · intro h
      rcases horig' h with h1 | ⟨i, hi, hei⟩
      · rw [hcf1] at h1
        rcases Bool.or_eq_true_iff.mp h1 with h2 | h2
        · exact Or.inl h2
        · exact Or.inr ⟨idx, le_refl idx, h2⟩
      · exact Or.inr ⟨i, Nat.le_of_succ_le hi, hei⟩

/-- Once the cancel flag is set, the rest of the loop marks every
listed task "Canceled before start", launches nothing, writes nothing,
and never clears the flag. -/
theorem runLoop_cancel_all (tasks : List Task) (procB : String → ProcBehavior)
    (o : SinkOracle) (dry : Bool) (extCancel : Nat → Bool) :
    ∀ (l : List String) (idx : Nat) (s : RState), s.cancelFlag = true →
      ∃ s', runLoop tasks procB o dry extCancel l idx s = .ok s' ∧
        s'.cancelFlag = true ∧
        (∀ tid ∈ l, (getStatus s' tid).state = "canceled" ∧
          (getStatus s' tid).message = "Canceled before start") ∧
        s'.launched = s.launched ∧
        s'.log = s.log ∧
        (∀ k, k ∉ l → s'.status k = s.status k) := by
  intro l
  induction l with
  | nil =>
    intro idx s hcf
    exact ⟨s, rfl, hcf, fun tid ht => absurd ht (List.not_mem_nil tid), rfl, rfl,
      fun k _ => rfl⟩
  | cons tid rest ih =>
    intro idx s hcf
    have hc : (s.cancelFlag || extCancel idx) = true := by rw [hcf]; rfl
    have hstep := runStep_cancel_char tasks procB o dry extCancel idx tid s hc
    set s1 := setStatus { s with cancelFlag := true } tid fun st =>
      { st with state := "canceled", message := "Canceled before start" } with hs1
    have hcf1 : s1.cancelFlag = true := by rw [hs1, setStatus_cancelFlag]
    obtain ⟨s', he', hcf', hall', hla', hlog', hfr'⟩ := ih (idx + 1) s1 hcf1
    refine ⟨s', ?_, hcf', ?_, ?_, ?_, ?_⟩
    · rw [runLoop, hstep]
      exact he'
    · intro e he
      rcases List.mem_cons.mp he with rfl | hem
      · by_cases her : e ∈ rest
        · exact hall' e her
        · have := hfr' e her
          constructor
          · rw [getStatus, this, hs1]
            have h2 := getStatus_setStatus_self { s with cancelFlag := true } e
              (fun st => { st with state := "canceled", message := "Canceled before start" })
            rw [getStatus] at h2
            rw [h2]
          · rw [getStatus, this, hs1]
            have h2 := getStatus_setStatus_self { s with cancelFlag := true } e
              (fun st => { st with state := "canceled", message := "Canceled before start" })
            rw [getStatus] at h2
            rw [h2]
      · exact hall' e hem
    · rw [hla', hs1, setStatus_launched]
    · rw [hlog', hs1, setStatus_log]
    · intro k hk
      have hk1 : k ≠ tid := fun h => hk (h ▸ List.mem_cons_self tid rest)
      have hk2 : k ∉ rest := fun h => hk (List.mem_cons_of_mem tid h)
      rw [hfr' k hk2, hs1, setStatus_status_ne _ _ _ _ hk1]

/-- Once an external `cancel()` is observed at boundary `k` (the
cancel event is set-only, hence the monotonicity hypothesis), every
task at position `k` or later is marked "Canceled before start" and no
process is launched for it. -/
theorem runLoop_cancel_after (tasks : List Task) (procB : String → ProcBehavior)
    (o : SinkOracle) (dry : Bool) (extCancel : Nat → Bool) (ho : sinkOk o)
    (hmono : ∀ i j, i ≤ j → extCancel i = true → extCancel j = true) :
    ∀ (l : List String) (idx : Nat) (s : RState),
      (∀ tid ∈ l, tid ∈ taskIds tasks) → l.Nodup →
      ∀ k, extCancel k = true →
      ∃ s', runLoop tasks procB o dry extCancel l idx s = .ok s' ∧
        ∀ i (h : i < l.length), k ≤ idx + i →
          (getStatus s' (l.get ⟨i, h⟩)).state = "canceled" ∧
          (getStatus s' (l.get ⟨i, h⟩)).message = "Canceled before start" ∧
          ∀ cmd, (l.get ⟨i, h⟩, cmd) ∈ s'.launched → (l.get ⟨i, h⟩, cmd) ∈ s.launched := by
  intro l
  induction l with
  | nil =>
    intro idx s _ _ k hk
    exact ⟨s, rfl, fun i h => absurd h (by simp)⟩
  | cons tid rest ih =>
    intro idx s hl hnd k hk
    by_cases hki : k ≤ idx
    · have hext : extCancel idx = true := hmono k idx hki hk
      have hc : (s.cancelFlag || extCancel idx) = true := by rw [hext]; simp
      have hcf1 : (setStatus { s with cancelFlag := true } tid fun st =>
          { st with state := "canceled", message := "Canceled before start" }).cancelFlag
          = true := setStatus_cancelFlag _ _ _
      obtain ⟨s', he', _, hall', hla', _, hfr'⟩ := runLoop_cancel_all tasks procB o dry
        extCancel rest (idx + 1)
        (setStatus { s with cancelFlag := true } tid fun st =>
          { st with state := "canceled", message := "Canceled before start" }) hcf1
      refine ⟨s', ?_, ?_⟩
      · rw [runLoop, runStep_cancel_char tasks procB o dry extCancel idx tid s hc]
        exact he'
      · intro i h hki2
        have hlaun : ∀ cmd, ((tid :: rest).get ⟨i, h⟩, cmd) ∈ s'.launched →
            ((tid :: rest).get ⟨i, h⟩, cmd) ∈ s.launched := by
          intro cmd hcm
          rw [hla', setStatus_launched] at hcm
          exact hcm
        cases i with
        | zero =>
          have htid_not : tid ∉ rest := (List.nodup_cons.mp hnd).1
          have hunch := hfr' tid htid_not
          have hgs : getStatus s' tid =
              { getStatus s tid with
                  state := "canceled"
                  message := "Canceled before start" } := by
            unfold getStatus at *
            rw [hunch]
            have h2 := getStatus_setStatus_self { s with cancelFlag := true } tid
              (fun st => { st with state := "canceled", message := "Canceled before start" })
            unfold getStatus at h2
            rw [h2]
          refine ⟨?_, ?_, hlaun⟩
          · show (getStatus s' tid).state = "canceled"
            rw [hgs]
          · show (getStatus s' tid).message = "Canceled before start"
            rw [hgs]
        | succ j =>
          have hj : j < rest.length := by
            have := h
            simp only [List.length_cons] at this
            omega
          have hmem : rest.get ⟨j, hj⟩ ∈ rest := List.get_mem rest j hj
          have hres := hall' (rest.get ⟨j, hj⟩) hmem
          exact ⟨hres.1, hres.2, hlaun⟩
    · obtain ⟨s1, he1, _, _, _, hlb1, _, _, _⟩ :=
        runStep_char tasks procB o dry extCancel idx tid s ho
          (hl tid (List.mem_cons_self tid rest))
      obtain ⟨s', he', hrest⟩ := ih (idx + 1) s1
        (fun e he => hl e (List.mem_cons_of_mem tid he)) (List.nodup_cons.mp hnd).2 k hk
      refine ⟨s', ?_, ?_⟩
      · rw [runLoop, he1]
        exact he'
      · intro i h hki2
        cases i with
        | zero => omega
        | succ j =>
          have hj : j < rest.length := by
            have := h
            simp only [List.length_cons] at this
            omega
          have hk2 : k ≤ (idx + 1) + j := by omega
          have hres := hrest j hj hk2
          refine ⟨hres.1, hres.2.1, ?_⟩
          intro cmd hcm
          have h1 := hres.2.2 cmd hcm
          rcases hlb1 (rest.get ⟨j, hj⟩, cmd) h1 with h2 | h2
          · exact h2
          · exfalso
            have htid_not : tid ∉ rest := (List.nodup_cons.mp hnd).1
            have hmem : rest.get ⟨j, hj⟩ ∈ rest := List.get_mem rest j hj
            have h3 : rest.get ⟨j, hj⟩ = tid := h2
            rw [h3] at hmem
            exact htid_not hmem

/-- The state strings one loop iteration assigns to its task, in
order: exactly one of `[canceled]`, `[skipped]`, `[running, ok]`,
`[running, failed]`, and nothing for any other task. -/
theorem runStep_assigns (tasks : List Task) (procB : String → ProcBehavior) (o : SinkOracle)
    (dry : Bool) (extCancel : Nat → Bool) (idx : Nat) (tid : String) (s : RState)
    (ho : sinkOk o) (hid : tid ∈ taskIds tasks) :
    ∃ s' δ, runStep tasks procB o dry extCancel idx tid s = .ok s' ∧
      s'.assigns = s.assigns ++ δ ∧ (∀ p ∈ δ, p.1 = tid) ∧
      (δ.map Prod.snd = ["canceled"] ∨ δ.map Prod.snd = ["skipped"] ∨
        δ.map Prod.snd = ["running", "ok"] ∨ δ.map Prod.snd = ["running", "failed"]) := by
  by_cases hc : (s.cancelFlag || extCancel idx) = true
  · rw [runStep_cancel_char tasks procB o dry extCancel idx tid s hc]
    refine ⟨_, [(tid, "canceled")], rfl, ?_, ?_, Or.inl rfl⟩
    · rw [setStatus_assigns]
    · intro p hp
      rw [List.mem_singleton.mp hp]
  · have hor : (s.cancelFlag || extCancel idx) = false := by
      cases hcc : (s.cancelFlag || extCancel idx) with
      | false => rfl
      | true => exact absurd hcc hc
    have hflag : s.cancelFlag = false := (Bool.or_eq_false_iff.mp hor).1
    have hext : extCancel idx = false := (Bool.or_eq_false_iff.mp hor).2
    rw [runStep_eq_nc tasks procB o dry extCancel idx tid s hflag hext]
    obtain ⟨task, hlk⟩ := Option.isSome_iff_exists.mp ((lookupTask_isSome_iff tasks tid).mpr hid)
    obtain ⟨_, htaskid⟩ := lookupTask_eq_some tasks tid task hlk
    unfold runStepNC
    rw [hlk]
    have hrest : ∃ s' δ, runStepRest procB o dry task s = .ok s' ∧
        s'.assigns = s.assigns ++ δ ∧ (∀ p ∈ δ, p.1 = tid) ∧
        (δ.map Prod.snd = ["canceled"] ∨ δ.map Prod.snd = ["skipped"] ∨
          δ.map Prod.snd = ["running", "ok"] ∨ δ.map Prod.snd = ["running", "failed"]) := by
      cases dry with
      | true =>
        obtain ⟨s', he, _, _, _, _, _, hasg, _⟩ := runStepRest_dry_char procB o task s ho
        rw [htaskid] at hasg
        refine ⟨s', [(tid, "skipped")], he, hasg, ?_, Or.inr (Or.inl rfl)⟩
        intro p hp
        rw [List.mem_singleton.mp hp]
      | false =>
        rw [runStepRest_false]
        obtain ⟨s', he, _, _, _, _, _, _, _, _, hasg⟩ := execute_char procB o task s ho
        rw [htaskid] at hasg
        refine ⟨s', [(tid, "running"), (tid, execState (procB tid))], he, ?_, ?_, ?_⟩
        · rw [hasg]
        · intro p hp
          rcases List.mem_cons.mp hp with h | h
          · rw [h]
          · rw [List.mem_singleton.mp h]
        · rcases execState_mem (procB tid) with h | h
          · rw [h]
            exact Or.inr (Or.inr (Or.inl rfl))
          · rw [h]
            exact Or.inr (Or.inr (Or.inr rfl))
    cases hfd : task.depends_on.find? (fun d =>
        (getStatus s d).state == "failed" || (getStatus s d).state == "canceled") with
    | some d =>
      simp only [hfd]
      by_cases hde : d = ""
      · rw [if_pos hde]
        exact hrest
      · rw [if_neg hde]
        refine ⟨_, [(tid, "skipped")], rfl, ?_, ?_, Or.inr (Or.inl rfl)⟩
        · rw [setStatus_assigns]
        · intro p hp
          rw [List.mem_singleton.mp hp]
    | none =>
      simp only [hfd]
      exact hrest

/-- Per-task assignment traces over a whole duplicate-free loop: a
task in the order receives exactly one burst from the allowed set; any
other identifier receives nothing. -/
theorem runLoop_assigns (tasks : List Task) (procB : String → ProcBehavior) (o : SinkOracle)
    (dry : Bool) (extCancel : Nat → Bool) (ho : sinkOk o) :
    ∀ (l : List String) (idx : Nat) (s : RState),
      (∀ tid ∈ l, tid ∈ taskIds tasks) → l.Nodup →
      ∃ s', runLoop tasks procB o dry extCancel l idx s = .ok s' ∧
        ∀ tid, (s'.assigns.filter (fun p => p.1 == tid)) =
            (s.assigns.filter (fun p => p.1 == tid)) ∨
          (tid ∈ l ∧ ∃ δ, (s'.assigns.filter (fun p => p.1 == tid)) =
            (s.assigns.filter (fun p => p.1 == tid)) ++ δ ∧
            (δ.map Prod.snd = ["canceled"] ∨ δ.map Prod.snd = ["skipped"] ∨
              δ.map Prod.snd = ["running", "ok"] ∨
              δ.map Prod.snd = ["running", "failed"])) := by
  intro l
  induction l with
  | nil =>
    intro idx s _ _
    exact ⟨s, rfl, fun tid => Or.inl rfl⟩
  | cons t0 rest ih =>
    intro idx s hl hnd
    obtain ⟨s1, δ, he1, hasg1, hδtag, hδok⟩ := runStep_assigns tasks procB o dry extCancel
      idx t0 s ho (hl t0 (List.mem_cons_self t0 rest))
    obtain ⟨s', he', hall'⟩ := ih (idx + 1) s1
      (fun e he => hl e (List.mem_cons_of_mem t0 he)) (List.nodup_cons.mp hnd).2
    have hfilter1 : ∀ tid, s1.assigns.filter (fun p => p.1 == tid) =
        (s.assigns.filter (fun p => p.1 == tid)) ++ (δ.filter (fun p => p.1 == tid)) := by
      intro tid
      rw [hasg1, List.filter_append]
    have hδself : δ.filter (fun p => p.1 == t0) = δ := by
      apply List.filter_eq_self.mpr
      intro p hp
      exact beq_iff_eq.mpr (hδtag p hp)
    have hδother : ∀ tid, tid ≠ t0 → δ.filter (fun p => p.1 == tid) = [] := by
      intro tid hne
      apply List.filter_eq_nil_iff.mpr
      intro p hp
      intro hbeq
      exact hne ((beq_iff_eq.mp hbeq) ▸ (hδtag p hp) ▸ rfl)
    refine ⟨s', by rw [runLoop, he1]; exact he', ?_⟩
    intro tid
    by_cases hts : tid = t0
    · subst hts
      rcases hall' tid with h | ⟨hmem, _⟩
      · rw [h, hfilter1, hδself]
        exact Or.inr ⟨List.mem_cons_self tid rest, δ, rfl, hδok⟩
      · exact absurd hmem (List.nodup_cons.mp hnd).1
    · have hf1 : s1.assigns.filter (fun p => p.1 == tid) =
          s.assigns.filter (fun p => p.1 == tid) := by
        rw [hfilter1, hδother tid hts, List.append_nil]
      rcases hall' tid with h | ⟨hmem, δ', hδ', hδ'ok⟩
      · rw [h, hf1]
        exact Or.inl rfl
      · rw [hδ', hf1]
        exact Or.inr ⟨List.mem_cons_of_mem t0 hmem, δ', rfl, hδ'ok⟩

/-- A dry-run loop with no cancellation and no failed/canceled status
anywhere: every listed task ends "Dry-run (skipped execution)", the
log receives exactly the previews in order, and nothing is launched. -/
theorem runLoop_dry_all (tasks : List Task) (procB : String → ProcBehavior) (o : SinkOracle)
    (extCancel : Nat → Bool) (ho : sinkOk o) (hext : ∀ i, extCancel i = false) :
    ∀ (l : List String) (idx : Nat) (s : RState),
      (∀ tid ∈ l, tid ∈ taskIds tasks) → l.Nodup →
      s.cancelFlag = false →
      (∀ d, (getStatus s d).state ≠ "failed" ∧ (getStatus s d).state ≠ "canceled") →
      ∃ s', runLoop tasks procB o true extCancel l idx s = .ok s' ∧
        s'.cancelFlag = false ∧
        (∀ tid ∈ l, (getStatus s' tid).state = "skipped" ∧
          (getStatus s' tid).message = "Dry-run (skipped execution)") ∧
        (∀ k, k ∉ l → s'.status k = s.status k) ∧
        s'.launched = s.launched ∧
        s'.log = s.log ++ l.map (previewOf tasks) := by
  intro l
  induction l with
  | nil =>
    intro idx s _ _ hflag _
    exact ⟨s, rfl, hflag, fun tid ht => absurd ht (List.not_mem_nil tid),
      fun k _ => rfl, rfl, by simp⟩
  | cons tid rest ih =>
    intro idx s hl hnd hflag hfresh
    obtain ⟨task, hlk⟩ := Option.isSome_iff_exists.mp
      ((lookupTask_isSome_iff tasks tid).mpr (hl tid (List.mem_cons_self tid rest)))
    obtain ⟨_, htaskid⟩ := lookupTask_eq_some tasks tid task hlk
    have hfd : task.depends_on.find? (fun d =>
        (getStatus s d).state == "failed" || (getStatus s d).state == "canceled") = none := by
      apply List.find?_eq_none.mpr
      intro d _
      have := hfresh d
      simp [this.1, this.2]
    have hstep : runStep tasks procB o true extCancel idx tid s =
        runStepRest procB o true task s := by
      rw [runStep_eq_nc tasks procB o true extCancel idx tid s hflag (hext idx)]
      unfold runStepNC
      rw [hlk]
      simp only [hfd]
    obtain ⟨s1, he1, hcf1, hfr1, hgs1, hlog1, hla1, _, _⟩ :=
      runStepRest_dry_char procB o task s ho
    rw [htaskid] at hfr1 hgs1
    have hflag1 : s1.cancelFlag = false := by rw [hcf1, hflag]
    have hfresh1 : ∀ d, (getStatus s1 d).state ≠ "failed" ∧
        (getStatus s1 d).state ≠ "canceled" := by
      intro d
      by_cases hd : d = tid
      · subst hd
        rw [hgs1]
        exact ⟨by simp, by simp⟩
      · have := hfr1 d hd
        unfold getStatus
        rw [this]
        exact hfresh d
    obtain ⟨s', he', hcf', hall', hfr', hla', hlog'⟩ := ih (idx + 1) s1
      (fun e he => hl e (List.mem_cons_of_mem tid he)) (List.nodup_cons.mp hnd).2
      hflag1 hfresh1
    refine ⟨s', ?_, hcf', ?_, ?_, ?_, ?_⟩
    · rw [runLoop, hstep, he1]
      exact he'
    · intro e he
      rcases List.mem_cons.mp he with rfl | hem
      · have hnr : e ∉ rest := (List.nodup_cons.mp hnd).1
        have hunch := hfr' e hnr
        constructor
        · show (getStatus s' e).state = "skipped"
          unfold getStatus
          rw [hunch]
          have := hgs1
          unfold getStatus at this
          rw [this]
        · show (getStatus s' e).message = "Dry-run (skipped execution)"
          unfold getStatus
          rw [hunch]
          have := hgs1
          unfold getStatus at this
          rw [this]
      · exact hall' e hem
    · intro k hk
      have hk1 : k ≠ tid := fun h => hk (h ▸ List.mem_cons_self tid rest)
      have hk2 : k ∉ rest := fun h => hk (List.mem_cons_of_mem tid h)
      rw [hfr' k hk2, hfr1 k hk1]
    · rw [hla', hla1]
    · rw [hlog', hlog1]
      have hp : previewOf tasks tid = dryPreview task := by
        unfold previewOf
        rw [hlk]
      simp [hp, List.append_assoc]

theorem find?_congr_pred {α : Type} (l : List α) (p q : α → Bool)
    (h : ∀ x ∈ l, p x = q x) : l.find? p = l.find? q := by
  induction l with
  | nil => rfl
  | cons a l ih =>
    simp only [List.find?_cons]
    rw [h a (List.mem_cons_self a l)]
    cases q a with
    | true => rfl
    | false => exact ih (fun x hx => h x (List.mem_cons_of_mem a hx))

theorem doneC2_preserve (tasks : List Task) (s s2 : RState) (tid : String)
    (hd : DoneC2 tasks s tid)
    (hself : s2.status tid = s.status tid)
    (hdeps : ∀ d ∈ depsOf tasks tid, s2.status d = s.status d) :
    DoneC2 tasks s2 tid := by
  have hg : getStatus s2 tid = getStatus s tid := by
    unfold getStatus
    rw [hself]
  have hgd : ∀ d ∈ depsOf tasks tid, getStatus s2 d = getStatus s d := by
    intro d hdm
    unfold getStatus
    rw [hdeps d hdm]
  obtain ⟨h1, h2, h3⟩ := hd
  refine ⟨by rw [hg]; exact h1, ?_, ?_⟩
  · rw [hg]
    constructor
    · intro hsk
      obtain ⟨d, hdm, hfs⟩ := h2.mp hsk
      exact ⟨d, hdm, by rw [hgd d hdm]; exact hfs⟩
    · intro hex
      obtain ⟨d, hdm, hfs⟩ := hex
      exact h2.mpr ⟨d, hdm, by rw [← hgd d hdm]; exact hfs⟩
  · rw [hg]
    intro hsk
    obtain ⟨d, hfind, hmsg⟩ := h3 hsk
    refine ⟨d, ?_, hmsg⟩
    rw [find?_congr_pred (depsOf tasks tid) _ _ (fun x hx => by rw [hgd x hx])]
    exact hfind

/-- The non-dry, uncancelled run loop establishes `DoneC2` for every
processed task and touches nothing else. `P` is the already-processed
prefix of the (duplicate-free, topologically ordered) full order. -/
theorem runLoop_c2 (tasks : List Task) (r : String → Nat) (hr : rankOk tasks r)
    (procB : String → ProcBehavior) (o : SinkOracle) (extCancel : Nat → Bool)
    (ho : sinkOk o) (hext : ∀ i, extCancel i = false)
    (hne : ∀ t ∈ tasks, "" ∉ t.depends_on) :
    ∀ (l P : List String) (idx : Nat) (s : RState),
      (∀ tid ∈ l, tid ∈ taskIds tasks) →
      (P ++ l).Nodup →
      topoOK tasks (P ++ l) →
      s.cancelFlag = false →
      (∀ tid ∈ P, DoneC2 tasks s tid) →
      ∃ s', runLoop tasks procB o false extCancel l idx s = .ok s' ∧
        s'.cancelFlag = false ∧
        (∀ k, k ∉ l → s'.status k = s.status k) ∧
        (∀ tid ∈ P ++ l, DoneC2 tasks s' tid) := by
  intro l
  induction l with
  | nil =>
    intro P idx s _ _ _ hflag hdoneP
    exact ⟨s, rfl, hflag, fun k _ => rfl, by simpa using hdoneP⟩
  | cons tid rest ih =>
    intro P idx s hl hnd htopo hflag hdoneP
    have htid_ids : tid ∈ taskIds tasks := hl tid (List.mem_cons_self tid rest)
    obtain ⟨task, hlk⟩ := Option.isSome_iff_exists.mp
      ((lookupTask_isSome_iff tasks tid).mpr htid_ids)
    obtain ⟨htaskmem, htaskid⟩ := lookupTask_eq_some tasks tid task hlk
    have hdeps_eq : depsOf tasks tid = task.depends_on := depsOf_eq_of_lookup tasks tid task hlk
    have htid_notP : tid ∉ P := by
      have h2 := List.nodup_append.mp hnd
      intro hm
      exact h2.2.2 hm (List.mem_cons_self tid rest)
    have htid_notrest : tid ∉ rest := by
      have h2 := List.nodup_append.mp hnd
      exact (List.nodup_cons.mp h2.2.1).1
    have hdeps_inP : ∀ d ∈ depsOf tasks tid, d ∈ taskIds tasks → d ∈ P := by
      have hlen : P.length < (P ++ tid :: rest).length := by simp
      have hget : (P ++ tid :: rest).get ⟨P.length, hlen⟩ = tid := by
        simp only [List.get_eq_getElem]
        rw [List.getElem_append_right (le_refl P.length)]
        simp
      have htake : (P ++ tid :: rest).take P.length = P := by
        rw [List.take_append_of_le_length (le_refl _), List.take_length]
      intro d hd hdid
      have := htopo P.length hlen d (by rw [hget]; exact hd) hdid
      rw [htake] at this
      exact this
    have hd_ne_tid : ∀ d ∈ depsOf tasks tid, d ≠ tid := by
      intro d hd
      by_cases hdid : d ∈ taskIds tasks
      · intro he
        have := rank_lt_of_dep tasks r hr tid d htid_ids hd hdid
        rw [he] at this
        exact lt_irrefl _ this
      · intro he
        exact hdid (he ▸ htid_ids)
    have hdeps_P : ∀ p ∈ P, ∀ d ∈ depsOf tasks p, d ∈ taskIds tasks → d ∈ P := by
      intro p hp d hd hdid
      obtain ⟨i, hi⟩ := List.mem_iff_get.mp hp
      have hlen2 : i.val < (P ++ tid :: rest).length := by
        have := i.isLt
        simp only [List.length_append]
        omega
      have hget2 : (P ++ tid :: rest).get ⟨i.val, hlen2⟩ = p := by
        simp only [List.get_eq_getElem]
        rw [List.getElem_append_left i.isLt]
        rw [← hi]
        simp [List.get_eq_getElem]
      have := htopo i.val hlen2 d (by rw [hget2]; exact hd) hdid
      have hsub : (P ++ tid :: rest).take i.val ⊆ P := by
        have h1 : (P ++ tid :: rest).take i.val = P.take i.val :=
          List.take_append_of_le_length (le_of_lt i.isLt)
        rw [h1]
        exact List.take_subset i.val P
      exact hsub this
    have hnd' : ((P ++ [tid]) ++ rest).Nodup := by
      rw [List.append_assoc, List.singleton_append]
      exact hnd
    have htopo' : topoOK tasks ((P ++ [tid]) ++ rest) := by
      rw [List.append_assoc, List.singleton_append]
      exact htopo
    have hstepeq : runStep tasks procB o false extCancel idx tid s =
        runStepNC tasks procB o false tid s :=
      runStep_eq_nc tasks procB o false extCancel idx tid s hflag (hext idx)
    cases hfd : task.depends_on.find? (fun d =>
        (getStatus s d).state == "failed" || (getStatus s d).state == "canceled") with
    | some d =>
      have hdmem : d ∈ task.depends_on := List.mem_of_find?_eq_some hfd
      have hdpred := List.find?_some hfd
      have hdfail : (getStatus s d).state = "failed" ∨ (getStatus s d).state = "canceled" := by
        rcases Bool.or_eq_true_iff.mp hdpred with h | h
        · exact Or.inl (beq_iff_eq.mp h)
        · exact Or.inr (beq_iff_eq.mp h)
      have hdne : d ≠ "" := fun he => hne task htaskmem (he ▸ hdmem)
      have hs1eq : runStepNC tasks procB o false tid s =
          .ok (setStatus s tid fun st =>
            { st with
                state := "skipped"
                message := "Skipped due to failed dependency: " ++ d }) := by
        unfold runStepNC
        rw [hlk]
        simp only [hfd]
        rw [if_neg hdne]
      set s1 := setStatus s tid fun st =>
        { st with
            state := "skipped"
            message := "Skipped due to failed dependency: " ++ d } with hs1def
      have hflag1 : s1.cancelFlag = false := by
        rw [hs1def, setStatus_cancelFlag, hflag]
      have hfr1 : ∀ k, k ≠ tid → s1.status k = s.status k := by
        intro k hk
        rw [hs1def, setStatus_status_ne _ _ _ _ hk]
      have hgs1 : getStatus s1 tid =
          { getStatus s tid with
              state := "skipped"
              message := "Skipped due to failed dependency: " ++ d } := by
        rw [hs1def, getStatus_setStatus_self]
      have hdep_unch : ∀ x ∈ depsOf tasks tid, getStatus s1 x = getStatus s x := by
        intro x hx
        unfold getStatus
        rw [hfr1 x (hd_ne_tid x hx)]
      have hdone_tid : DoneC2 tasks s1 tid := by
        refine ⟨Or.inl (by rw [hgs1]), ?_, ?_⟩
        · apply iff_of_true (by rw [hgs1])
          refine ⟨d, by rw [hdeps_eq]; exact hdmem, ?_⟩
          rw [hdep_unch d (by rw [hdeps_eq]; exact hdmem)]
          exact hdfail
        · intro _
          refine ⟨d, ?_, by rw [hgs1]⟩
          rw [find?_congr_pred (depsOf tasks tid) _ _
            (fun x hx => by rw [hdep_unch x hx]), hdeps_eq]
          exact hfd
      have hdoneP' : ∀ p ∈ P ++ [tid], DoneC2 tasks s1 p := by
        intro p hp
        rcases List.mem_append.mp hp with hpm | hpm
        · apply doneC2_preserve tasks s s1 p (hdoneP p hpm)
          · exact hfr1 p (fun he => htid_notP (he ▸ hpm))
          · intro d2 hd2
            apply hfr1 d2
            by_cases hdid2 : d2 ∈ taskIds tasks
            · exact fun he => htid_notP (he ▸ hdeps_P p hpm d2 hd2 hdid2)
            · exact fun he => hdid2 (he ▸ htid_ids)
        · rw [List.mem_singleton.mp hpm]
          exact hdone_tid
      obtain ⟨s', he', hflag', hfr', hdone'⟩ := ih (P ++ [tid]) (idx + 1) s1
        (fun e he => hl e (List.mem_cons_of_mem tid he)) hnd' htopo' hflag1 hdoneP'
      refine ⟨s', ?_, hflag', ?_, ?_⟩
      · rw [runLoop, hstepeq, hs1eq]
        exact he'
      · intro k hk
        have hk1 : k ≠ tid := fun h => hk (h ▸ List.mem_cons_self tid rest)
        have hk2 : k ∉ rest := fun h => hk (List.mem_cons_of_mem tid h)
        rw [hfr' k hk2, hfr1 k hk1]
      · intro x hx
        apply hdone' x
        rw [List.append_assoc, List.singleton_append]
        exact hx
    | none =>
      have hnofail : ∀ x ∈ task.depends_on,
          ¬((getStatus s x).state = "failed" ∨ (getStatus s x).state = "canceled") := by
        intro x hx
        have := List.find?_eq_none.mp hfd x hx
        intro hor
        apply this
        rcases hor with h | h
        · rw [h]
          rfl
        · rw [h]
          rfl
      have hs1eq : runStepNC tasks procB o false tid s = execute procB o task s := by
        unfold runStepNC
        rw [hlk]
        simp only [hfd]
        rw [runStepRest_false]
      obtain ⟨s1, he1, hcf1, hfr1e, _, _, hsst1, _, _, _, _⟩ := execute_char procB o task s ho
      rw [htaskid] at hfr1e hsst1
      have hflag1 : s1.cancelFlag = false := by rw [hcf1, hflag]
      have hdep_unch : ∀ x ∈ depsOf tasks tid, getStatus s1 x = getStatus s x := by
        intro x hx
        unfold getStatus
        rw [hfr1e x (hd_ne_tid x hx)]
      have hstate_term : (getStatus s1 tid).state = "ok" ∨ (getStatus s1 tid).state = "failed" := by
        rw [hsst1]
        exact execState_mem (procB tid)
      have hnot_skip : ¬(getStatus s1 tid).state = "skipped" := by
        rcases hstate_term with h | h
        · rw [h]
          decide
        · rw [h]
          decide
      have hdone_tid : DoneC2 tasks s1 tid := by
        refine ⟨Or.inr hstate_term, ?_, ?_⟩
        · apply iff_of_false hnot_skip
          intro hex
          obtain ⟨d2, hd2, hfs⟩ := hex
          rw [hdep_unch d2 hd2] at hfs
          exact hnofail d2 (by rw [← hdeps_eq]; exact hd2) hfs
        · intro h
          exact absurd h hnot_skip
      have hdoneP' : ∀ p ∈ P ++ [tid], DoneC2 tasks s1 p := by
        intro p hp
        rcases List.mem_append.mp hp with hpm | hpm
        · apply doneC2_preserve tasks s s1 p (hdoneP p hpm)
          · exact hfr1e p (fun he => htid_notP (he ▸ hpm))
          · intro d2 hd2
            apply hfr1e d2
            by_cases hdid2 : d2 ∈ taskIds tasks
            · exact fun he => htid_notP (he ▸ hdeps_P p hpm d2 hd2 hdid2)
            · exact fun he => hdid2 (he ▸ htid_ids)
        · rw [List.mem_singleton.mp hpm]
          exact hdone_tid
      obtain ⟨s', he', hflag', hfr', hdone'⟩ := ih (P ++ [tid]) (idx + 1) s1
        (fun e he => hl e (List.mem_cons_of_mem tid he)) hnd' htopo' hflag1 hdoneP'
      refine ⟨s', ?_, hflag', ?_, ?_⟩
      · rw [runLoop, hstepeq, hs1eq, he1]
        exact he'
      · intro k hk
        have hk1 : k ≠ tid := fun h => hk (h ▸ List.mem_cons_self tid rest)
        have hk2 : k ∉ rest := fun h => hk (List.mem_cons_of_mem tid h)
        rw [hfr' k hk2, hfr1e k hk1]
      · intro x hx
        apply hdone' x
        rw [List.append_assoc, List.singleton_append]
        exact hx

/-- Two uncancelled runs of the same loop over the same definitions,
process behaviours and selection, started from states that agree on
the states of identifiers outside the definition set, assign the same
state to every task of the order: the per-task state is recomputed
from this run's inputs alone.  (`P` is the processed prefix on which
agreement has already been established.) -/
theorem runLoop_bisim (tasks : List Task)
    (procB : String → ProcBehavior) (oA oB : SinkOracle) (dry : Bool)
    (extCancel : Nat → Bool) (hoA : sinkOk oA) (hoB : sinkOk oB)
    (hext : ∀ i, extCancel i = false) :
    ∀ (l P : List String) (idx : Nat) (sA sB : RState),
      (∀ tid ∈ l, tid ∈ taskIds tasks) →
      (P ++ l).Nodup →
      topoOK tasks (P ++ l) →
      sA.cancelFlag = false → sB.cancelFlag = false →
      (∀ k, k ∉ taskIds tasks → (getStatus sA k).state = (getStatus sB k).state) →
      (∀ p ∈ P, (getStatus sA p).state = (getStatus sB p).state) →
      ∃ sA' sB', runLoop tasks procB oA dry extCancel l idx sA = .ok sA' ∧
        runLoop tasks procB oB dry extCancel l idx sB = .ok sB' ∧
        ∀ p ∈ P ++ l, (getStatus sA' p).state = (getStatus sB' p).state := by
  intro l
  induction l with
  | nil =>
    intro P idx sA sB _ _ _ _ _ _ hP
    exact ⟨sA, sB, rfl, rfl, by simpa using hP⟩
  | cons tid rest ih =>
    intro P idx sA sB hl hnd htopo hflagA hflagB hout hP
    have htid_ids : tid ∈ taskIds tasks := hl tid (List.mem_cons_self tid rest)
    obtain ⟨task, hlk⟩ := Option.isSome_iff_exists.mp
      ((lookupTask_isSome_iff tasks tid).mpr htid_ids)
    obtain ⟨htaskmem, htaskid⟩ := lookupTask_eq_some tasks tid task hlk
    have htid_notP : tid ∉ P := by
      have h2 := List.nodup_append.mp hnd
      intro hm
      exact h2.2.2 hm (List.mem_cons_self tid rest)
    have hdeps_inP : ∀ d ∈ depsOf tasks tid, d ∈ taskIds tasks → d ∈ P := by
      have hlen : P.length < (P ++ tid :: rest).length := by simp
      have hget : (P ++ tid :: rest).get ⟨P.length, hlen⟩ = tid := by
        simp only [List.get_eq_getElem]
        rw [List.getElem_append_right (le_refl P.length)]
        simp
      have htake : (P ++ tid :: rest).take P.length = P := by
        rw [List.take_append_of_le_length (le_refl _), List.take_length]
      intro d hd hdid
      have := htopo P.length hlen d (by rw [hget]; exact hd) hdid
      rw [htake] at this
      exact this
    have hdeps_eq : depsOf tasks tid = task.depends_on := depsOf_eq_of_lookup tasks tid task hlk
    have hdep_states : ∀ x ∈ task.depends_on,
        (getStatus sA x).state = (getStatus sB x).state := by
      intro x hx
      by_cases hxi : x ∈ taskIds tasks
      · exact hP x (hdeps_inP x (by rw [hdeps_eq]; exact hx) hxi)
      · exact hout x hxi
    have hfind_eq : task.depends_on.find? (fun d =>
          (getStatus sA d).state == "failed" || (getStatus sA d).state == "canceled") =
        task.depends_on.find? (fun d =>
          (getStatus sB d).state == "failed" || (getStatus sB d).state == "canceled") := by
      apply find?_congr_pred
      intro x hx
      rw [hdep_states x hx]
    have hnd' : ((P ++ [tid]) ++ rest).Nodup := by
      rw [List.append_assoc, List.singleton_append]
      exact hnd
    have htopo' : topoOK tasks ((P ++ [tid]) ++ rest) := by
      rw [List.append_assoc, List.singleton_append]
      exact htopo
    have hstepA : runStep tasks procB oA dry extCancel idx tid sA =
        runStepNC tasks procB oA dry tid sA :=
      runStep_eq_nc tasks procB oA dry extCancel idx tid sA hflagA (hext idx)
    have hstepB : runStep tasks procB oB dry extCancel idx tid sB =
        runStepNC tasks procB oB dry tid sB :=
      runStep_eq_nc tasks procB oB dry extCancel idx tid sB hflagB (hext idx)
    -- the tail of an iteration: both sides take the same branch and
    -- record the same state for `tid`
    have hrest : ∀ (s1A s1B : RState),
        runStepRest procB oA dry task sA = .ok s1A →
        runStepRest procB oB dry task sB = .ok s1B →
        s1A.cancelFlag = sA.cancelFlag ∧ s1B.cancelFlag = sB.cancelFlag ∧
        (∀ k, k ≠ tid → s1A.status k = sA.status k) ∧
        (∀ k, k ≠ tid → s1B.status k = sB.status k) ∧
        (getStatus s1A tid).state = (getStatus s1B tid).state := by
      intro s1A s1B heA heB
      cases dry with
      | true =>
        obtain ⟨s1A', heA', hcfA, hfrA, hgsA, _, _, _, _⟩ :=
          runStepRest_dry_char procB oA task sA hoA
        obtain ⟨s1B', heB', hcfB, hfrB, hgsB, _, _, _, _⟩ :=
          runStepRest_dry_char procB oB task sB hoB
        rw [heA] at heA'
        rw [heB] at heB'
        cases heA'
        cases heB'
        rw [htaskid] at hfrA hgsA hfrB hgsB
        refine ⟨hcfA, hcfB, hfrA, hfrB, ?_⟩
        rw [hgsA, hgsB]
      | false =>
        rw [runStepRest_false] at heA heB
        obtain ⟨s1A', heA', hcfA, hfrA, _, _, hsstA, _, _, _, _⟩ :=
          execute_char procB oA task sA hoA
        obtain ⟨s1B', heB', hcfB, hfrB, _, _, hsstB, _, _, _, _⟩ :=
          execute_char procB oB task sB hoB
        rw [heA] at heA'
        rw [heB] at heB'
        cases heA'
        cases heB'
        rw [htaskid] at hfrA hsstA hfrB hsstB
        refine ⟨hcfA, hcfB, hfrA, hfrB, ?_⟩
        rw [hsstA, hsstB]
    -- both step results, by the shared branch decision
    have hsteps : ∃ s1A s1B,
        runStepNC tasks procB oA dry tid sA = .ok s1A ∧
        runStepNC tasks procB oB dry tid sB = .ok s1B ∧
        s1A.cancelFlag = sA.cancelFlag ∧ s1B.cancelFlag = sB.cancelFlag ∧
        (∀ k, k ≠ tid → s1A.status k = sA.status k) ∧
        (∀ k, k ≠ tid → s1B.status k = sB.status k) ∧
        (getStatus s1A tid).state = (getStatus s1B tid).state := by
      cases hfd : task.depends_on.find? (fun d =>
          (getStatus sA d).state == "failed" || (getStatus sA d).state == "canceled") with
      | some d =>
        have hfdB := hfind_eq ▸ hfd
        by_cases hde : d = ""
        · have heqA : runStepNC tasks procB oA dry tid sA =
              runStepRest procB oA dry task sA := by
            unfold runStepNC
            rw [hlk]
            simp only [hfd]
            rw [if_pos hde]
          have heqB : runStepNC tasks procB oB dry tid sB =
              runStepRest procB oB dry task sB := by
            unfold runStepNC
            rw [hlk]
            simp only [hfdB]
            rw [if_pos hde]
          cases dry with
          | true =>
            obtain ⟨s1A, heA, _⟩ := runStepRest_dry_char procB oA task sA hoA
            obtain ⟨s1B, heB, _⟩ := runStepRest_dry_char procB oB task sB hoB
            obtain ⟨hcfA, hcfB, hfrA, hfrB, hst⟩ := hrest s1A s1B heA heB
            exact ⟨s1A, s1B, by rw [heqA]; exact heA, by rw [heqB]; exact heB,
              hcfA, hcfB, hfrA, hfrB, hst⟩
          | false =>
            obtain ⟨s1A, heA, _⟩ := execute_char procB oA task sA hoA
            obtain ⟨s1B, heB, _⟩ := execute_char procB oB task sB hoB
            have heA2 : runStepRest procB oA false task sA = .ok s1A := by
              rw [runStepRest_false]
              exact heA
            have heB2 : runStepRest procB oB false task sB = .ok s1B := by
              rw [runStepRest_false]
              exact heB
            obtain ⟨hcfA, hcfB, hfrA, hfrB, hst⟩ := hrest s1A s1B heA2 heB2
            exact ⟨s1A, s1B, by rw [heqA]; exact heA2, by rw [heqB]; exact heB2,
              hcfA, hcfB, hfrA, hfrB, hst⟩
        · refine ⟨setStatus sA tid fun st =>
              { st with
                  state := "skipped"
                  message := "Skipped due to failed dependency: " ++ d },
            setStatus sB tid fun st =>
              { st with
                  state := "skipped"
                  message := "Skipped due to failed dependency: " ++ d }, ?_, ?_, ?_, ?_,
            ?_, ?_, ?_⟩
          · unfold runStepNC
            rw [hlk]
            simp only [hfd]
            rw [if_neg hde]
          · unfold runStepNC
            rw [hlk]
            simp only [hfdB]
            rw [if_neg hde]
          · exact setStatus_cancelFlag _ _ _
          · exact setStatus_cancelFlag _ _ _
          · intro k hk
            exact setStatus_status_ne _ _ _ _ hk
          · intro k hk
            exact setStatus_status_ne _ _ _ _ hk
          · rw [getStatus_setStatus_self, getStatus_setStatus_self]
      | none =>
        have hfdB := hfind_eq ▸ hfd
        have heqA : runStepNC tasks procB oA dry tid sA =
            runStepRest procB oA dry task sA := by
          unfold runStepNC
          rw [hlk]
          simp only [hfd]
        have heqB : runStepNC tasks procB oB dry tid sB =
            runStepRest procB oB dry task sB := by
          unfold runStepNC
          rw [hlk]
          simp only [hfdB]
        cases dry with
        | true =>
          obtain ⟨s1A, heA, _⟩ := runStepRest_dry_char procB oA task sA hoA
          obtain ⟨s1B, heB, _⟩ := runStepRest_dry_char procB oB task sB hoB
          obtain ⟨hcfA, hcfB, hfrA, hfrB, hst⟩ := hrest s1A s1B heA heB
          exact ⟨s1A, s1B, by rw [heqA]; exact heA, by rw [heqB]; exact heB,
            hcfA, hcfB, hfrA, hfrB, hst⟩
        | false =>
          obtain ⟨s1A, heA, _⟩ := execute_char procB oA task sA hoA
          obtain ⟨s1B, heB, _⟩ := execute_char procB oB task sB hoB
          have heA2 : runStepRest procB oA false task sA = .ok s1A := by
            rw [runStepRest_false]
            exact heA
          have heB2 : runStepRest procB oB false task sB = .ok s1B := by
            rw [runStepRest_false]
            exact heB
          obtain ⟨hcfA, hcfB, hfrA, hfrB, hst⟩ := hrest s1A s1B heA2 heB2
          exact ⟨s1A, s1B, by rw [heqA]; exact heA2, by rw [heqB]; exact heB2,
            hcfA, hcfB, hfrA, hfrB, hst⟩
    obtain ⟨s1A, s1B, heA, heB, hcfA, hcfB, hfrA, hfrB, hst⟩ := hsteps
    have hout1 : ∀ k, k ∉ taskIds tasks →
        (getStatus s1A k).state = (getStatus s1B k).state := by
      intro k hk
      have hkt : k ≠ tid := fun he => hk (he ▸ htid_ids)
      unfold getStatus
      rw [hfrA k hkt, hfrB k hkt]
      exact hout k hk
    have hP1 : ∀ p ∈ P ++ [tid], (getStatus s1A p).state = (getStatus s1B p).state := by
      intro p hp
      rcases List.mem_append.mp hp with hpm | hpm
      · have hpt : p ≠ tid := fun he => htid_notP (he ▸ hpm)
        unfold getStatus
        rw [hfrA p hpt, hfrB p hpt]
        exact hP p hpm
      · rw [List.mem_singleton.mp hpm]
        exact hst
    obtain ⟨sA', sB', heA', heB', hfin⟩ := ih (P ++ [tid]) (idx + 1) s1A s1B
      (fun e he => hl e (List.mem_cons_of_mem tid he)) hnd' htopo'
      (by rw [hcfA, hflagA]) (by rw [hcfB, hflagB]) hout1 hP1
    refine ⟨sA', sB', ?_, ?_, ?_⟩
    · rw [runLoop, hstepA, heA]
      exact heA'
    · rw [runLoop, hstepB, heB]
      exact heB'
    · intro p hp
      apply hfin p
      rw [List.append_assoc, List.singleton_append]
      exact hp

theorem sink0_ok : sinkOk sink0 := fun _ => rfl

/-! ### Claim theorems -/

/-- C1: for every definition set whose dependency edges are acyclic
(witnessed by a rank function) and every requested subset (defaulted,
as the code does, to all identifiers when the selection is empty or
absent), the linearization computed at the start of `run` contains
exactly the transitive closure, within the definition set, of the
requested identifiers; every identifier appears exactly once, after
all of its in-set prerequisites, and identifiers absent from the
definition set never appear. -/
theorem claim1_linearize_correct (tasks : List Task) (r : String → Nat)
    (selected : Option (List String)) (hr : rankOk tasks r) :
    (∀ x, x ∈ linearize tasks selected ↔ InClosure tasks (toRunOf tasks selected) x) ∧
    (linearize tasks selected).Nodup ∧
    topoOK tasks (linearize tasks selected) ∧
    (∀ d, d ∉ taskIds tasks → d ∉ linearize tasks selected) :=
  ⟨fun x => linearize_mem_iff tasks r hr selected x,
   linearize_nodup tasks selected,
   linearize_topo tasks r hr selected,
   fun d hd hmem => hd (linearize_sub_ids tasks selected d hmem)⟩

/-- C1 witness: the A←B←C chain with a dangling prerequisite `X`,
requesting only `C`. -/
theorem claim1_witness :
    (∀ x, x ∈ linearize exTasks (some ["C"]) ↔
      InClosure exTasks (toRunOf exTasks (some ["C"])) x) ∧
    (linearize exTasks (some ["C"])).Nodup ∧
    topoOK exTasks (linearize exTasks (some ["C"])) ∧
    (∀ d, d ∉ taskIds exTasks → d ∉ linearize exTasks (some ["C"])) :=
  claim1_linearize_correct exTasks exRank (some ["C"]) (by unfold rankOk; decide)

/-- C3: for every executed task (under a sink whose writes return
normally, as `LogView.write` does): exit code 0 yields state `ok` with
the exit code recorded; a non-zero exit yields `failed` with message
`rc=<code>`; a launch fault or stream fault yields `failed` with the
fault description as message; the end timestamp is recorded in every
case, and `_execute` returns normally so the run continues with the
next task. -/
theorem claim3_execute_outcomes (procB : String → ProcBehavior) (o : SinkOracle)
    (task : Task) (s : RState) (ho : sinkOk o) :
    ∃ s', execute procB o task s = .ok s' ∧
      (getStatus s' task.id).end_ts.isSome = true ∧
      (∀ lines, procB task.id = .runsTo lines (.ok 0) →
        (getStatus s' task.id).state = "ok" ∧ (getStatus s' task.id).rc = some 0) ∧
      (∀ lines rc, procB task.id = .runsTo lines (.ok rc) → rc ≠ 0 →
        (getStatus s' task.id).state = "failed" ∧
        (getStatus s' task.id).message = "rc=" ++ toString rc ∧
        (getStatus s' task.id).rc = some rc) ∧
      (∀ msg, procB task.id = .launchFault msg →
        (getStatus s' task.id).state = "failed" ∧
        (getStatus s' task.id).message = msg) ∧
      (∀ lines msg, procB task.id = .runsTo lines (.error msg) →
        (getStatus s' task.id).state = "failed" ∧
        (getStatus s' task.id).message = msg) := by
  obtain ⟨s', he, _, _, _, hend, hstate, hmsg, hrc, _, _⟩ := execute_char procB o task s ho
  refine ⟨s', he, hend, ?_, ?_, ?_, ?_⟩
  · intro lines hpb
    rw [hstate, hrc, hpb]
    simp [execState, execRc]
  · intro lines rc hpb hne
    rw [hstate, hmsg, hrc, hpb]
    simp [execState, execMsg, execRc, hne]
  · intro msg hpb
    rw [hstate, hmsg, hpb]
    exact ⟨rfl, rfl⟩
  · intro lines msg hpb
    rw [hstate, hmsg, hpb]
    exact ⟨rfl, rfl⟩

/-- C3 witness: a non-zero exit on the concrete fixture. -/
theorem claim3_witness :
    ∃ s', execute pbAfails sink0 exA initState = .ok s' ∧
      (getStatus s' exA.id).end_ts.isSome = true ∧
      (∀ lines, pbAfails exA.id = .runsTo lines (.ok 0) →
        (getStatus s' exA.id).state = "ok" ∧ (getStatus s' exA.id).rc = some 0) ∧
      (∀ lines rc, pbAfails exA.id = .runsTo lines (.ok rc) → rc ≠ 0 →
        (getStatus s' exA.id).state = "failed" ∧
        (getStatus s' exA.id).message = "rc=" ++ toString rc ∧
        (getStatus s' exA.id).rc = some rc) ∧
      (∀ msg, pbAfails exA.id = .launchFault msg →
        (getStatus s' exA.id).state = "failed" ∧
        (getStatus s' exA.id).message = msg) ∧
      (∀ lines msg, pbAfails exA.id = .runsTo lines (.error msg) →
        (getStatus s' exA.id).state = "failed" ∧
        (getStatus s' exA.id).message = msg) :=
  claim3_execute_outcomes pbAfails sink0 exA initState sink0_ok

/-- C5 counterexample: the claim quantifies over every behaviour of the
output sink, but a sink write that raises during the dry-run preview
(line 237, outside any `try:`) escapes `run`. -/
theorem claim5_counterexample :
    run [exA] none true noCancel pbOk sinkBoom initState = .error "sink write raised" := rfl

/-- C5 (amended): provided the output sink's writes return normally (as
the repository's `LogView.write` does), `run` never raises: for every
definition set, selection, dry-run flag, cancellation pattern and
process behaviour — including launch faults and stream faults — the
loop completes and returns normally. -/
theorem claim5_run_total (tasks : List Task) (selected : Option (List String)) (dry : Bool)
    (extCancel : Nat → Bool) (procB : String → ProcBehavior) (o : SinkOracle) (s : RState)
    (ho : sinkOk o) : ∃ s', run tasks selected dry extCancel procB o s = .ok s' := by
  obtain ⟨s', he, _⟩ := runLoop_char tasks procB o dry extCancel ho
    (linearize tasks selected) 0 s (linearize_sub_ids tasks selected)
  exact ⟨s', he⟩

/-- C5 witness: a run over the fixture with a launch-faulting process
still returns normally. -/
theorem claim5_witness :
    ∃ s', run exTasks none false noCancel (fun _ => .launchFault "spawn failed") sink0
      initState = .ok s' :=
  claim5_run_total exTasks none false noCancel (fun _ => .launchFault "spawn failed")
    sink0 initState sink0_ok

/-- C9: a requested identifier absent from the definition set is
silently ignored: it never enters the linear order, no status entry is
created for it, no process is launched for it, and the run still
returns normally. -/
theorem claim9_unknown_requested (tasks : List Task) (selected : Option (List String))
    (dry : Bool) (extCancel : Nat → Bool) (procB : String → ProcBehavior) (o : SinkOracle)
    (s : RState) (tid : String) (ho : sinkOk o) (habs : tid ∉ taskIds tasks) :
    tid ∉ linearize tasks selected ∧
    ∃ s', run tasks selected dry extCancel procB o s = .ok s' ∧
      s'.status tid = s.status tid ∧
      (∀ cmd, (tid, cmd) ∈ s'.launched → (tid, cmd) ∈ s.launched) := by
  have hnot : tid ∉ linearize tasks selected :=
    fun h => habs (linearize_sub_ids tasks selected tid h)
  obtain ⟨s', he, hfr, _, hlb, _, _, _, _⟩ := runLoop_char tasks procB o dry extCancel ho
    (linearize tasks selected) 0 s (linearize_sub_ids tasks selected)
  refine ⟨hnot, s', he, hfr tid hnot, ?_⟩
  intro cmd hc
  rcases hlb (tid, cmd) hc with h | h
  · exact h
  · exact absurd h hnot

/-- C9 witness: requesting the unknown identifier `X` alongside `B`. -/
theorem claim9_witness :
    "X" ∉ linearize exTasks (some ["X", "B"]) ∧
    ∃ s', run exTasks (some ["X", "B"]) false noCancel pbOk sink0 initState = .ok s' ∧
      s'.status "X" = initState.status "X" ∧
      (∀ cmd, ("X", cmd) ∈ s'.launched → ("X", cmd) ∈ initState.launched) :=
  claim9_unknown_requested exTasks (some ["X", "B"]) false noCancel pbOk sink0 initState
    "X" sink0_ok (by decide)

/-- C10: the launched command never depends on the `shell` flag; an
argument vector passes through unchanged and a string command is
always wrapped as `["bash", "-lc", command]`. -/
theorem claim10_resolved_cmd :
    (∀ (t : Task) (b : Bool), resolvedCmd { t with shell := b } = resolvedCmd t) ∧
    (∀ (t : Task) (args : List String), t.command = .argv args → resolvedCmd t = args) ∧
    (∀ (t : Task) (line : String), t.command = .shellLine line →
      resolvedCmd t = ["bash", "-lc", line]) :=
  ⟨fun _ _ => rfl,
   fun t args h => by simp [resolvedCmd, h],
   fun t line h => by simp [resolvedCmd, h]⟩

/-- C10 witness: both command representations on the fixture. -/
theorem claim10_witness :
    resolvedCmd { exC with shell := true } = resolvedCmd exC ∧
    resolvedCmd exA = ["echo", "a"] ∧
    resolvedCmd exC = ["bash", "-lc", "echo c"] :=
  ⟨claim10_resolved_cmd.1 exC true,
   claim10_resolved_cmd.2.1 exA ["echo", "a"] rfl,
   claim10_resolved_cmd.2.2 exC "echo c" rfl⟩

/-- C4: (i) `cancel()` sets the flag; (ii) with the flag set, any run
on the same instance — current or subsequent — returns with the flag
still set, launches no process, and marks every task of the order
"Canceled before start"; (iii) once an external `cancel()` is observed
at boundary `k` of a run (the event is set-only, hence the
monotonicity hypothesis), every task at position `k` or later is
canceled and never launched; (iv) a task already inside `_execute`
when the flag is set runs to completion: the cancel flag is not
consulted there and the task always ends `ok` or `failed`. -/
theorem claim4_cancel_semantics :
    (∀ s : RState, (cancel s).cancelFlag = true) ∧
    (∀ (tasks : List Task) (selected : Option (List String)) (dry : Bool)
        (extCancel : Nat → Bool) (procB : String → ProcBehavior) (o : SinkOracle)
        (s : RState), s.cancelFlag = true →
      ∃ s', run tasks selected dry extCancel procB o s = .ok s' ∧
        s'.cancelFlag = true ∧ s'.launched = s.launched ∧
        ∀ tid ∈ linearize tasks selected,
          (getStatus s' tid).state = "canceled" ∧
          (getStatus s' tid).message = "Canceled before start") ∧
    (∀ (tasks : List Task) (selected : Option (List String)) (dry : Bool)
        (extCancel : Nat → Bool) (procB : String → ProcBehavior) (o : SinkOracle)
        (s : RState) (k : Nat), sinkOk o →
        (∀ i j, i ≤ j → extCancel i = true → extCancel j = true) →
        extCancel k = true →
      ∃ s', run tasks selected dry extCancel procB o s = .ok s' ∧
        ∀ i (h : i < (linearize tasks selected).length), k ≤ i →
          (getStatus s' ((linearize tasks selected).get ⟨i, h⟩)).state = "canceled" ∧
          (getStatus s' ((linearize tasks selected).get ⟨i, h⟩)).message =
            "Canceled before start" ∧
          ∀ cmd, ((linearize tasks selected).get ⟨i, h⟩, cmd) ∈ s'.launched →
            ((linearize tasks selected).get ⟨i, h⟩, cmd) ∈ s.launched) ∧
    (∀ (procB : String → ProcBehavior) (o : SinkOracle) (task : Task) (s : RState),
        sinkOk o →
      ∃ s', execute procB o task s = .ok s' ∧
        ((getStatus s' task.id).state = "ok" ∨ (getStatus s' task.id).state = "failed")) := by
  refine ⟨fun s => rfl, ?_, ?_, ?_⟩
  · intro tasks selected dry extCancel procB o s hcf
    obtain ⟨s', he', hcf', hall', hla', _, _⟩ := runLoop_cancel_all tasks procB o dry
      extCancel (linearize tasks selected) 0 s hcf
    exact ⟨s', he', hcf', hla', hall'⟩
  · intro tasks selected dry extCancel procB o s k ho hmono hk
    obtain ⟨s', he', hrest⟩ := runLoop_cancel_after tasks procB o dry extCancel ho hmono
      (linearize tasks selected) 0 s (linearize_sub_ids tasks selected)
      (linearize_nodup tasks selected) k hk
    refine ⟨s', he', ?_⟩
    intro i h hki
    exact hrest i h (by omega)
  · intro procB o task s ho
    obtain ⟨s', he, _, _, _, _, hstate, _, _, _, _⟩ := execute_char procB o task s ho
    refine ⟨s', he, ?_⟩
    rw [hstate]
    exact execState_mem (procB task.id)

/-- C4 witness: cancel before a run of the fixture; every task ends
canceled and nothing is launched. -/
theorem claim4_witness :
    ∃ s', run exTasks none false noCancel pbOk sink0 (cancel initState) = .ok s' ∧
      s'.cancelFlag = true ∧ s'.launched = (cancel initState).launched ∧
      ∀ tid ∈ linearize exTasks none,
        (getStatus s' tid).state = "canceled" ∧
        (getStatus s' tid).message = "Canceled before start" :=
  claim4_cancel_semantics.2.1 exTasks none false noCancel pbOk sink0 (cancel initState)
    (claim4_cancel_semantics.1 initState)

/-- C8: within a single run pass (so starting from an empty assignment
trail), the sequence of states assigned to any one task is one of
`[]`, `[canceled]`, `[skipped]`, `[running, ok]`, `[running, failed]`:
a task's first assignment is `running`, `skipped` or `canceled`; only
`running` is followed by another assignment, which is `ok` or
`failed`; a task that reached a terminal state is never assigned
again. -/
theorem claim8_monotonic_states (tasks : List Task) (selected : Option (List String))
    (dry : Bool) (extCancel : Nat → Bool) (procB : String → ProcBehavior) (o : SinkOracle)
    (s : RState) (ho : sinkOk o) (hfresh : s.assigns = []) :
    ∃ s', run tasks selected dry extCancel procB o s = .ok s' ∧
      ∀ tid, ((s'.assigns.filter (fun p => p.1 == tid)).map Prod.snd = [] ∨
        (s'.assigns.filter (fun p => p.1 == tid)).map Prod.snd = ["canceled"] ∨
        (s'.assigns.filter (fun p => p.1 == tid)).map Prod.snd = ["skipped"] ∨
        (s'.assigns.filter (fun p => p.1 == tid)).map Prod.snd = ["running", "ok"] ∨
        (s'.assigns.filter (fun p => p.1 == tid)).map Prod.snd = ["running", "failed"]) := by
  obtain ⟨s', he, hall⟩ := runLoop_assigns tasks procB o dry extCancel ho
    (linearize tasks selected) 0 s (linearize_sub_ids tasks selected)
    (linearize_nodup tasks selected)
  refine ⟨s', he, ?_⟩
  intro tid
  have hsf : s.assigns.filter (fun p => p.1 == tid) = [] := by rw [hfresh]; rfl
  rcases hall tid with h | ⟨_, δ, hδ, hδok⟩
  · rw [h, hsf]
    exact Or.inl rfl
  · rw [hδ, hsf, List.nil_append]
    rcases hδok with h1 | h1 | h1 | h1
    · exact Or.inr (Or.inl h1)
    · exact Or.inr (Or.inr (Or.inl h1))
    · exact Or.inr (Or.inr (Or.inr (Or.inl h1)))
    · exact Or.inr (Or.inr (Or.inr (Or.inr h1)))

/-- C8 witness: a fresh run of the fixture in which `A` fails. -/
theorem claim8_witness :
    ∃ s', run exTasks none false noCancel pbAfails sink0 initState = .ok s' ∧
      ∀ tid, ((s'.assigns.filter (fun p => p.1 == tid)).map Prod.snd = [] ∨
        (s'.assigns.filter (fun p => p.1 == tid)).map Prod.snd = ["canceled"] ∨
        (s'.assigns.filter (fun p => p.1 == tid)).map Prod.snd = ["skipped"] ∨
        (s'.assigns.filter (fun p => p.1 == tid)).map Prod.snd = ["running", "ok"] ∨
        (s'.assigns.filter (fun p => p.1 == tid)).map Prod.snd = ["running", "failed"]) :=
  claim8_monotonic_states exTasks none false noCancel pbAfails sink0 initState
    sink0_ok rfl

/-- C6 counterexample: the claim as stated fails when cancellation was
requested before the dry run — the task ends "canceled", not
"skipped", and no preview is written. -/
theorem claim6_counterexample :
    ∃ s', run [exA] none true noCancel pbOk sink0 (cancel initState) = .ok s' ∧
      (getStatus s' "A").state = "canceled" ∧ s'.log = [] :=
  ⟨_, rfl, rfl, rfl⟩

/-- C6 (amended): for a dry run with no cancellation pending or
arriving, and no status carrying "failed" or "canceled" at the start
(e.g. a fresh engine), no process is launched, every task of the
resolved order ends "skipped" with message "Dry-run (skipped
execution)", and the sink receives exactly one preview (label and
command) per task, in order. -/
theorem claim6_dry_run (tasks : List Task) (selected : Option (List String))
    (extCancel : Nat → Bool) (procB : String → ProcBehavior) (o : SinkOracle) (s : RState)
    (ho : sinkOk o) (hext : ∀ i, extCancel i = false) (hflag : s.cancelFlag = false)
    (hfresh : ∀ d, (getStatus s d).state ≠ "failed" ∧ (getStatus s d).state ≠ "canceled") :
    ∃ s', run tasks selected true extCancel procB o s = .ok s' ∧
      s'.launched = s.launched ∧
      (∀ tid ∈ linearize tasks selected, (getStatus s' tid).state = "skipped" ∧
        (getStatus s' tid).message = "Dry-run (skipped execution)") ∧
      s'.log = s.log ++ (linearize tasks selected).map (previewOf tasks) := by
  obtain ⟨s', he, _, hall, _, hla, hlog⟩ := runLoop_dry_all tasks procB o extCancel ho hext
    (linearize tasks selected) 0 s (linearize_sub_ids tasks selected)
    (linearize_nodup tasks selected) hflag hfresh
  exact ⟨s', he, hla, hall, hlog⟩

/-- C6 witness: a fresh dry run over the fixture. -/
theorem claim6_witness :
    ∃ s', run exTasks none true noCancel pbOk sink0 initState = .ok s' ∧
      s'.launched = initState.launched ∧
      (∀ tid ∈ linearize exTasks none, (getStatus s' tid).state = "skipped" ∧
        (getStatus s' tid).message = "Dry-run (skipped execution)") ∧
      s'.log = initState.log ++ (linearize exTasks none).map (previewOf exTasks) :=
  claim6_dry_run exTasks none noCancel pbOk sink0 initState sink0_ok (fun _ => rfl) rfl
    (fun d => ⟨by simp [getStatus, initState]; decide, by simp [getStatus, initState]; decide⟩)

/-- C2 counterexample: in a dry run a task with no prerequisites still
ends the run in state "skipped", so "skipped iff some direct
prerequisite ended failed/canceled" fails as stated. -/
theorem claim2_counterexample :
    ∃ s', run [exA] none true noCancel pbOk sink0 initState = .ok s' ∧
      (getStatus s' "A").state = "skipped" ∧ exA.depends_on = [] :=
  ⟨_, rfl, rfl, rfl⟩

/-- C2 (amended): in a non-dry run with no cancellation, over an
acyclic definition set none of whose declared prerequisite lists
contains the empty identifier, a task visited by the run ends
"skipped" iff at least one of its direct prerequisites' states at the
end of the run is "failed" or "canceled"; and a skipped task's message
names the first such prerequisite in declaration order. -/
theorem claim2_skip_iff (tasks : List Task) (r : String → Nat)
    (selected : Option (List String)) (extCancel : Nat → Bool)
    (procB : String → ProcBehavior) (o : SinkOracle) (s : RState)
    (hr : rankOk tasks r) (ho : sinkOk o) (hext : ∀ i, extCancel i = false)
    (hflag : s.cancelFlag = false) (hne : ∀ t ∈ tasks, "" ∉ t.depends_on) :
    ∃ s', run tasks selected false extCancel procB o s = .ok s' ∧
      ∀ tid ∈ linearize tasks selected,
        ((getStatus s' tid).state = "skipped" ↔
          ∃ d ∈ depsOf tasks tid, (getStatus s' d).state = "failed" ∨
            (getStatus s' d).state = "canceled") ∧
        ((getStatus s' tid).state = "skipped" →
          ∃ d, (depsOf tasks tid).find? (fun x =>
              (getStatus s' x).state == "failed" ||
              (getStatus s' x).state == "canceled") = some d ∧
            (getStatus s' tid).message = "Skipped due to failed dependency: " ++ d) := by
  obtain ⟨s', he, _, _, hdone⟩ := runLoop_c2 tasks r hr procB o extCancel ho hext hne
    (linearize tasks selected) [] 0 s (linearize_sub_ids tasks selected)
    (by rw [List.nil_append]; exact linearize_nodup tasks selected)
    (by rw [List.nil_append]; exact linearize_topo tasks r hr selected)
    hflag (fun tid ht => absurd ht (List.not_mem_nil tid))
  refine ⟨s', he, ?_⟩
  intro tid htm
  have hd := hdone tid (by rw [List.nil_append]; exact htm)
  exact ⟨hd.2.1, hd.2.2⟩

/-- C2 witness: `A` fails, `B` (depending on `A`) is skipped naming
`A`; `C` (depending on the skipped `B` and the dangling `X`) runs. -/
theorem claim2_witness :
    ∃ s', run exTasks none false noCancel pbAfails sink0 initState = .ok s' ∧
      ∀ tid ∈ linearize exTasks none,
        ((getStatus s' tid).state = "skipped" ↔
          ∃ d ∈ depsOf exTasks tid, (getStatus s' d).state = "failed" ∨
            (getStatus s' d).state = "canceled") ∧
        ((getStatus s' tid).state = "skipped" →
          ∃ d, (depsOf exTasks tid).find? (fun x =>
              (getStatus s' x).state == "failed" ||
              (getStatus s' x).state == "canceled") = some d ∧
            (getStatus s' tid).message = "Skipped due to failed dependency: " ++ d) :=
  claim2_skip_iff exTasks exRank none noCancel pbAfails sink0 initState
    (by unfold rankOk; decide) sink0_ok (fun _ => rfl) rfl (by decide)

/-- C7: after a completed (uncancelled) first run on a fresh engine,
running again with any selection, dry flag and process behaviour gives
every task visited by the second run exactly the state a from-scratch
engine would give it: statuses are overwritten per visited task, and
stale entries influence nothing the second run visits. -/
theorem claim7_rerun_from_scratch (tasks : List Task) (r : String → Nat)
    (sel1 sel2 : Option (List String)) (dry1 dry2 : Bool)
    (pb1 pb2 : String → ProcBehavior) (o1 o2 : SinkOracle) (s1 : RState)
    (hr : rankOk tasks r) (ho1 : sinkOk o1) (ho2 : sinkOk o2)
    (hrun1 : run tasks sel1 dry1 noCancel pb1 o1 initState = .ok s1) :
    ∃ s2 s2f,
      run tasks sel2 dry2 noCancel pb2 o2 s1 = .ok s2 ∧
      run tasks sel2 dry2 noCancel pb2 o2 initState = .ok s2f ∧
      ∀ tid ∈ linearize tasks sel2, (getStatus s2 tid).state = (getStatus s2f tid).state := by
  obtain ⟨s1c, he1c, hfr1, _, _, _, _, _, horig⟩ := runLoop_char tasks pb1 o1 dry1 noCancel
    ho1 (linearize tasks sel1) 0 initState (linearize_sub_ids tasks sel1)
  unfold run at hrun1
  rw [he1c] at hrun1
  have hs1c : s1c = s1 := by
    cases hrun1
    rfl
  subst hs1c
  have hflag1 : s1c.cancelFlag = false := by
    cases hcf : s1c.cancelFlag with
    | false => rfl
    | true =>
      rcases horig hcf with h | ⟨i, _, hi⟩
      · exact absurd h (by simp [initState])
      · exact absurd hi (by simp [noCancel])
  have hout : ∀ k, k ∉ taskIds tasks →
      (getStatus s1c k).state = (getStatus initState k).state := by
    intro k hk
    have hknot : k ∉ linearize tasks sel1 :=
      fun h => hk (linearize_sub_ids tasks sel1 k h)
    unfold getStatus
    rw [hfr1 k hknot]
  obtain ⟨s2, s2f, he2, he2f, hfin⟩ := runLoop_bisim tasks pb2 o2 o2 dry2 noCancel ho2 ho2
    (fun _ => rfl) (linearize tasks sel2) [] 0 s1c initState
    (linearize_sub_ids tasks sel2)
    (by rw [List.nil_append]; exact linearize_nodup tasks sel2)
    (by rw [List.nil_append]; exact linearize_topo tasks r hr sel2)
    hflag1 rfl hout (fun p hp => absurd hp (List.not_mem_nil p))
  refine ⟨s2, s2f, he2, he2f, ?_⟩
  intro tid htm
  exact hfin tid (by rw [List.nil_append]; exact htm)

/-- C7 witness: a dry second run after the failed first run matches
the dry run of a fresh engine. -/
theorem claim7_witness :
    ∃ s2 s2f,
      run exTasks none true noCancel pbOk sink0 exS1 = .ok s2 ∧
      run exTasks none true noCancel pbOk sink0 initState = .ok s2f ∧
      ∀ tid ∈ linearize exTasks none, (getStatus s2 tid).state = (getStatus s2f tid).state :=
  claim7_rerun_from_scratch exTasks exRank none none false true pbAfails pbOk sink0 sink0
    exS1 (by unfold rankOk; decide) sink0_ok sink0_ok rfl

end Onboarder
